import Mathlib

/-!
Shallow embedding of the GenXAI graph execution engine
(`genxai/core/graph/{nodes,edges,engine,executor}.py`) and of the
checkpoint manager described by the specification.

Modelling conventions:
* Python dictionaries with string keys are association lists
  (`List (String × α)`); assignment `d[k] = v` is `setS`, which updates the
  first binding in place (preserving key order) and appends a new binding
  otherwise, exactly as CPython's insertion-ordered dicts behave.
* Python object identity of dictionaries is modelled by a `tag : Nat`
  carried by every dict value and by the shared state mapping.  The engine
  never rebinds the state dict (it only mutates it in place), so the tag of
  the state is constant through a run; two dict values are the same Python
  object exactly when their tags coincide.  A `fresh` counter in the
  execution state supplies tags for newly allocated dicts.
* The engine's `async` recursion contains no true suspension point for the
  node logics modelled here, so `asyncio.gather` runs the spawned
  coroutines to completion in creation order; the model executes parallel
  edges sequentially in that order.
* Exceptions are the `err` constructor of `ExecResult`, carrying the
  message and the (already mutated) execution state, mirroring Python's
  exception propagation over a mutable shared state.  `outOfFuel` is a
  model artifact: the recursion of `_execute_node` is bounded by a fuel
  argument, and a theorem shows the fuel chosen by `run` is never
  exhausted.
* Edge conditions are opaque boolean predicates over the state, as in the
  source (`Optional[Callable]`); the source treats exceptions inside a
  condition as `False`, which has no counterpart for total Lean functions.
* `metrics`/`tracing`/logging calls are no-ops for the modelled behavior
  and are omitted.
-/

namespace GenXAI

/-! ### Association-list primitives for Python dicts -/

def lookupS {α : Type} (k : String) : List (String × α) → Option α
  | [] => Option.none
  | (k2, v) :: rest => if k2 = k then some v else lookupS k rest

/-- Model of `d[k] = v` on an insertion-ordered Python dict. -/
def setS {α : Type} (k : String) (v : α) : List (String × α) → List (String × α)
  | [] => [(k, v)]
  | (k2, v2) :: rest => if k2 = k then (k, v) :: rest else (k2, v2) :: setS k v rest

/-- Update the value bound to an existing key in place (mutation of the
object already stored in the mapping). -/
def updS {α : Type} (k : String) (f : α → α) : List (String × α) → List (String × α)
  | [] => []
  | (k2, v) :: rest => if k2 = k then (k2, f v) :: rest else (k2, v) :: updS k f rest

/-- Model of `defaultdict(list)[k].append(x)`: append to the bucket of `k`,
creating the bucket at the end on first touch. -/
def bucketAdd {α : Type} (k : String) (x : α) : List (String × List α) → List (String × List α)
  | [] => [(k, [x])]
  | (k2, xs) :: rest =>
    if k2 = k then (k2, xs ++ [x]) :: rest else (k2, xs) :: bucketAdd k x rest

/-! ### Values

The universe of Python values the engine manipulates, restricted to the
primitives the claims exercise.  `dict` carries its identity tag. -/

inductive Value where
  | none : Value
  | int (n : Int) : Value
  | str (s : String) : Value
  | bool (b : Bool) : Value
  | dict (tag : Nat) (entries : List (String × Value)) : Value

/-- Tag of a dict value, if the value is a dict. -/
def Value.dictTag : Value → Option Nat
  | .dict t _ => some t
  | _ => Option.none

/-- Entries of a dict value, if the value is a dict. -/
def Value.dictEntries : Value → Option (List (String × Value))
  | .dict _ en => some en
  | _ => Option.none

/-! ### Node and edge model (`nodes.py`, `edges.py`) -/

inductive NodeType where
  | agent | tool | condition | subgraph | human | input | output
deriving DecidableEq, Repr

/-- The `value` of the `NodeType` string enum. -/
def NodeType.value : NodeType → String
  | .agent => "agent"
  | .tool => "tool"
  | .condition => "condition"
  | .subgraph => "subgraph"
  | .human => "human"
  | .input => "input"
  | .output => "output"

inductive NodeStatus where
  | pending | running | completed | failed | skipped
deriving DecidableEq, Repr

/-- The `value` of the `NodeStatus` string enum. -/
def NodeStatus.value : NodeStatus → String
  | .pending => "pending"
  | .running => "running"
  | .completed => "completed"
  | .failed => "failed"
  | .skipped => "skipped"

/-- A `Node`: type, mutable status/result/error.  `agent_id` models
`config.data["agent_id"]` of `AgentNode` (the only piece of `config` the
engine reads); it is `none` for non-agent nodes. -/
structure NodeRec where
  type : NodeType
  status : NodeStatus := .pending
  result : Option Value := Option.none
  error : Option String := Option.none
  agent_id : Option String := Option.none

/-- A freshly constructed node of the given type (status PENDING). -/
def freshNode (ty : NodeType) : NodeRec := { type := ty }

/-- An `Edge`: source/target ids, optional condition predicate, the
`parallel` metadata flag, and an integer priority. -/
structure EdgeRec where
  source : String
  target : String
  cond : Option (List (String × Value) → Bool) := Option.none
  parallel : Bool := false
  priority : Int := 0

/-- `Edge.evaluate_condition`: `True` when no condition is attached,
otherwise the predicate's verdict.  (The source additionally maps an
exception inside the predicate to `False`; total Lean predicates cannot
raise.) -/
def evaluate_condition (e : EdgeRec) (st : List (String × Value)) : Bool :=
  match e.cond with
  | Option.none => true
  | some c => c st

/-- An unconditional sequential edge with priority 0 (the defaults of the
`Edge` model). -/
def plainEdge (source target : String) : EdgeRec := { source := source, target := target }

/-! ### Graph container (`engine.py`) -/

structure Graph where
  name : String := "workflow"
  nodes : List (String × NodeRec) := []
  edges : List EdgeRec := []
  adjacency : List (String × List EdgeRec) := []
  reverse_adjacency : List (String × List String) := []

/-- `Graph.add_node`: fails if the id already exists, otherwise inserts. -/
def add_node (g : Graph) (id : String) (ty : NodeType) : Except String Graph :=
  if (lookupS id g.nodes).isSome then
    .error ("Node with id " ++ id ++ " already exists")
  else
    .ok { g with nodes := g.nodes ++ [(id, freshNode ty)] }

/-- `Graph.add_node` for an agent node carrying an `agent_id`. -/
def add_agent_node (g : Graph) (id : String) (aid : String) : Except String Graph :=
  if (lookupS id g.nodes).isSome then
    .error ("Node with id " ++ id ++ " already exists")
  else
    .ok { g with nodes := g.nodes ++ [(id, { type := .agent, agent_id := some aid })] }

/-- `Graph.add_edge`: fails if source or target is absent, otherwise
appends to the edge list and updates both adjacency indices. -/
def add_edge (g : Graph) (e : EdgeRec) : Except String Graph :=
  if (lookupS e.source g.nodes).isNone then
    .error ("Source node " ++ e.source ++ " not found")
  else if (lookupS e.target g.nodes).isNone then
    .error ("Target node " ++ e.target ++ " not found")
  else
    .ok { g with
      edges := g.edges ++ [e],
      adjacency := bucketAdd e.source e g.adjacency,
      reverse_adjacency := bucketAdd e.target e.source g.reverse_adjacency }

/-- `Graph.get_outgoing_edges`: adjacency lookup, empty when absent. -/
def get_outgoing_edges (g : Graph) (id : String) : List EdgeRec :=
  (lookupS id g.adjacency).getD []

/-- `Graph.get_incoming_nodes`: reverse-adjacency lookup, empty when absent. -/
def get_incoming_nodes (g : Graph) (id : String) : List String :=
  (lookupS id g.reverse_adjacency).getD []

/-- `Graph.validate`, returning the error message raised (if any).  The
disconnected-components scan only logs a warning and is omitted. -/
def validateErr (g : Graph) : Option String :=
  if g.nodes.isEmpty then some "Graph must have at least one node"
  else
    match g.edges.find? (fun e =>
        (lookupS e.source g.nodes).isNone || (lookupS e.target g.nodes).isNone) with
    | some e => some ("Edge references non-existent node: " ++ e.source ++ " -> " ++ e.target)
    | Option.none => Option.none

/-! ### Execution state -/

/-- Events recorded by the model at the two status assignments of
`_execute_node`: entering RUNNING (immediately before the node logic is
dispatched) and entering COMPLETED. -/
inductive Event where
  | running (id : String)
  | completed (id : String)
deriving DecidableEq, Repr

structure ExecState where
  nodes : List (String × NodeRec)
  state : List (String × Value)
  stateTag : Nat
  fresh : Nat
  trace : List Event

inductive ExecResult where
  | ok (es : ExecState)
  | err (msg : String) (es : ExecState)
  | outOfFuel

/-- The message of `GraphExecutionError(f"Maximum iterations ({m}) exceeded")`. -/
def maxIterMsg (maxIter : Int) : String :=
  "Maximum iterations (" ++ toString maxIter ++ ") exceeded"

/-- The wrapped message of `GraphExecutionError(f"Node {id} failed: {e}")`. -/
def nodeFailMsg (id msg : String) : String := "Node " ++ id ++ " failed: " ++ msg

/-- `state.get("iterations", 0)` as an integer; `none` models a Python
`TypeError` when the stored value is not an int (unreachable from `run`,
which resets the key to `0`). -/
def readIter (st : List (String × Value)) : Option Int :=
  match lookupS "iterations" st with
  | Option.none => some 0
  | some (.int k) => some k
  | some _ => Option.none

/-- The `except` clause of `_execute_node`: mark the node FAILED, record
the error message, and re-raise wrapped. -/
def nodeFail (id msg : String) (es : ExecState) : ExecResult :=
  .err (nodeFailMsg id msg)
    { es with nodes := updS id (fun n => { n with status := .failed, error := some msg }) es.nodes }

/-- A node logic (`_execute_node_logic`): from the node id, the node
record, and the execution state, either an exception message or the
computed result together with the updated allocation counter. -/
def LogicFn : Type := String → NodeRec → ExecState → Except String (Value × Nat)

/-- The result (value and updated allocation counter) computed by the base
engine's node logic. -/
def base_result (id : String) (nd : NodeRec) (es : ExecState) : Value × Nat :=
  match nd.type with
  | .input => ((lookupS "input" es.state).getD .none, es.fresh)
  | .output => (.dict es.stateTag es.state, es.fresh)
  | _ => (.dict es.fresh [("node_id", .str id), ("type", .str nd.type.value)], es.fresh + 1)

/-- `Graph._execute_node_logic` (base engine, `engine.py`): INPUT returns
`state.get("input")` (the very reference stored in the state), OUTPUT
returns the live state dict itself, anything else returns a freshly
allocated descriptor dict.  It never raises. -/
def execute_node_logic_base : LogicFn := fun id nd es => .ok (base_result id nd es)

/-! ### `copy.deepcopy` on values

A deep copy re-allocates every dict reachable from the value (fresh tags,
drawn in preorder from the allocation counter) while preserving all keys,
order, and primitive contents. -/

mutual
def deepcopyV (fresh : Nat) : Value → Value × Nat
  | .dict _ entries =>
    let (en, f2) := deepcopyE (fresh + 1) entries
    (.dict fresh en, f2)
  | v => (v, fresh)

def deepcopyE (fresh : Nat) : List (String × Value) → List (String × Value) × Nat
  | [] => ([], fresh)
  | (k, v) :: rest =>
    let (v2, f2) := deepcopyV fresh v
    let (rest2, f3) := deepcopyE f2 rest
    ((k, v2) :: rest2, f3)
end

/-- `EnhancedGraph._execute_node_logic` (`executor.py`): INPUT deep-copies
`state.get("input")`, OUTPUT deep-copies the entire live state, AGENT
resolves `config.data["agent_id"]` and delegates to the external agent
runtime, anything else returns a freshly allocated descriptor dict.  The
agent registry/runtime pair is an external collaborator (spec §1) and is
modelled as an opaque oracle from the agent id and the current state
contents to an exception or a result value. -/
def execute_node_logic_enhanced
    (oracle : String → List (String × Value) → Except String Value) : LogicFn :=
  fun id nd es =>
  match nd.type with
  | .input => .ok (deepcopyV es.fresh ((lookupS "input" es.state).getD .none))
  | .output => .ok (deepcopyV es.fresh (.dict es.stateTag es.state))
  | .agent =>
    match nd.agent_id with
    | Option.none => .error ("Agent node " ++ id ++ " missing agent_id in config.data")
    | some aid =>
      match oracle aid es.state with
      | .error m => .error m
      | .ok v => .ok (v, es.fresh)
  | _ => .ok (.dict es.fresh [("node_id", .str id), ("type", .str nd.type.value)], es.fresh + 1)

/-! ### The traversal engine (`Graph.run` / `Graph._execute_node`) -/

/-- Stable ascending insertion by priority: the model of Python's stable
`sorted(sequential_edges, key=lambda e: e.priority)`. -/
def insertByPriority (e : EdgeRec) : List EdgeRec → List EdgeRec
  | [] => [e]
  | x :: xs => if x.priority < e.priority then x :: insertByPriority e xs else e :: x :: xs

def sortEdges (l : List EdgeRec) : List EdgeRec := l.foldr insertByPriority []

/-- `asyncio.gather` over the parallel-edge targets whose conditions
already passed: the gathered coroutines contain no true suspension point,
so they run to completion in creation order; the first exception
propagates. -/
def execGather (step : String → ExecState → ExecResult) :
    List EdgeRec → ExecState → ExecResult
  | [], es => .ok es
  | e :: rest, es =>
    match step e.target es with
    | .ok es2 => execGather step rest es2
    | r => r

/-- The sequential-edge loop: each condition is evaluated against the
state as mutated by the previously executed targets. -/
def execSequential (step : String → ExecState → ExecResult) :
    List EdgeRec → ExecState → ExecResult
  | [], es => .ok es
  | e :: rest, es =>
    if evaluate_condition e es.state then
      match step e.target es with
      | .ok es2 => execSequential step rest es2
      | r => r
    else execSequential step rest es

/-- `Graph._execute_node`, with an explicit fuel bounding the recursion
depth (one unit per node visit). -/
def execute_node (L : LogicFn) (g : Graph) (maxIter : Int) :
    Nat → String → ExecState → ExecResult
  | 0, _, _ => .outOfFuel
  | fuel + 1, id, es =>
    match readIter es.state with
    | Option.none => .err "TypeError: iterations is not an int" es
    | some it =>
      if maxIter ≤ it then .err (maxIterMsg maxIter) es
      else
        let es := { es with state := setS "iterations" (.int (it + 1)) es.state }
        match lookupS id es.nodes with
        | Option.none => .err ("KeyError: " ++ id) es
        | some nd =>
          if nd.status = .completed then .ok es
          else
            let es := { es with
              nodes := updS id (fun n => { n with status := .running }) es.nodes,
              trace := es.trace ++ [.running id] }
            match L id nd es with
            | .error msg => nodeFail id msg es
            | .ok (result, fresh2) =>
              let es := { es with
                nodes := updS id
                  (fun n => { n with result := some result, status := .completed }) es.nodes,
                fresh := fresh2,
                trace := es.trace ++ [.completed id],
                state := setS id result es.state }
              let outgoing := get_outgoing_edges g id
              let parallel_edges := outgoing.filter (fun e => e.parallel)
              let sequential_edges := outgoing.filter (fun e => !e.parallel)
              let passing := parallel_edges.filter (fun e => evaluate_condition e es.state)
              match execGather (fun id2 es2 => execute_node L g maxIter fuel id2 es2) passing es with
              | .ok es1 =>
                match execSequential (fun id2 es2 => execute_node L g maxIter fuel id2 es2)
                    (sortEdges sequential_edges) es1 with
                | .ok es2 => .ok es2
                | .err m es2 => nodeFail id m es2
                | .outOfFuel => .outOfFuel
              | .err m es1 => nodeFail id m es1
              | .outOfFuel => .outOfFuel

/-- The entry-point loop of `run`; the first exception propagates. -/
def execEntries (L : LogicFn) (g : Graph) (maxIter : Int) (fuel : Nat) :
    List String → ExecState → ExecResult
  | [], es => .ok es
  | e :: rest, es =>
    match execute_node L g maxIter fuel e es with
    | .ok es2 => execEntries L g maxIter fuel rest es2
    | r => r

/-- Entry points: nodes with no incoming edges, else INPUT-typed nodes
(both in node insertion order). -/
def entry_points (g : Graph) : List String :=
  let zi := (g.nodes.filter (fun p => (get_incoming_nodes g p.1).isEmpty)).map (fun p => p.1)
  if zi.isEmpty then
    (g.nodes.filter (fun p => p.2.type = .input)).map (fun p => p.1)
  else zi

/-- The state dict supplied to `run`: its contents plus its object tag. -/
structure TaggedDict where
  tag : Nat
  entries : List (String × Value)

/-- `Graph.run`.  `state?` is the optional caller-supplied state dict;
`freshStart` seeds the allocation counter (the tag of the state dict the
engine allocates when `state? = none`).  The fuel handed to the recursion
is `max_iterations.toNat + 1`, which the termination theorem shows
sufficient. -/
def run (L : LogicFn) (g : Graph) (input : Value) (maxIter : Int)
    (state? : Option TaggedDict) (freshStart : Nat) : ExecResult :=
  let sd : TaggedDict :=
    match state? with
    | Option.none => { tag := freshStart, entries := [] }
    | some d => d
  let fresh0 : Nat :=
    match state? with
    | Option.none => freshStart + 1
    | some _ => freshStart
  let es0 : ExecState :=
    { nodes := g.nodes, state := sd.entries, stateTag := sd.tag, fresh := fresh0, trace := [] }
  if g.nodes.isEmpty then .err "Cannot run empty graph" es0
  else
    match validateErr g with
    | some m => .err m es0
    | Option.none =>
      let es1 := { es0 with
        state := setS "iterations" (.int 0) (setS "input" input es0.state) }
      let entries := entry_points g
      if entries.isEmpty then .err "No entry point found in graph" es1
      else execEntries L g maxIter (maxIter.toNat + 1) entries es1

/-- `run` of the base `Graph` engine. -/
def run_base (g : Graph) (input : Value) (maxIter : Int)
    (state? : Option TaggedDict) (freshStart : Nat) : ExecResult :=
  run execute_node_logic_base g input maxIter state? freshStart

/-- `run` of `EnhancedGraph` with the given agent oracle. -/
def run_enhanced (oracle : String → List (String × Value) → Except String Value)
    (g : Graph) (input : Value) (maxIter : Int)
    (state? : Option TaggedDict) (freshStart : Nat) : ExecResult :=
  run (execute_node_logic_enhanced oracle) g input maxIter state? freshStart

/-! ### Projections on execution results (used to state concrete facts) -/

def ExecResult.isOkB : ExecResult → Bool
  | .ok _ => true
  | _ => false

def ExecResult.errMsgOf : ExecResult → Option String
  | .err m _ => some m
  | _ => Option.none

def ExecResult.esOf : ExecResult → Option ExecState
  | .ok es => some es
  | _ => Option.none

def ExecResult.finalState : ExecResult → Option (List (String × Value)) :=
  fun r => (r.esOf).map (fun es => es.state)

def ExecResult.stateTagOf : ExecResult → Option Nat :=
  fun r => (r.esOf).map (fun es => es.stateTag)

def ExecResult.traceOf : ExecResult → Option (List Event) :=
  fun r => (r.esOf).map (fun es => es.trace)

def ExecResult.iterValOf : ExecResult → Option Value :=
  fun r => (r.finalState).bind (lookupS "iterations")

/-- The recorded result of a node after a successful run. -/
def ExecResult.nodeResultOf (r : ExecResult) (id : String) : Option Value :=
  (r.esOf).bind (fun es => (lookupS id es.nodes).bind (fun nd => nd.result))

/-- The status of a node after a run (also defined on error results, which
carry the mutated execution state). -/
def ExecResult.nodeStatusOf (r : ExecResult) (id : String) : Option NodeStatus :=
  match r with
  | .ok es => (lookupS id es.nodes).map (fun nd => nd.status)
  | .err _ es => (lookupS id es.nodes).map (fun nd => nd.status)
  | .outOfFuel => Option.none

/-- Index of the first occurrence of an event in a trace. -/
def idxOfEvent (e : Event) (tr : List Event) : Nat :=
  tr.findIdx (fun x => x = e)

/-! ### Checkpoint manager

The module `genxai/core/graph/checkpoints.py` is imported by the package
but is not part of the sources; the definitions below are therefore
modelled from the specification.

Modelled from the spec: `WorkflowCheckpointManager.save_checkpoint`
serializes `{workflow_name, state, node_statuses}` to a named artifact
under a directory and `load_checkpoint` deserializes it back, failing with
`CheckpointNotFoundError` when the artifact is absent or corrupt; the
round trip is faithful for primitive/JSON-compatible state (spec §4.4,
§6).  The directory is modelled as a name-keyed store of structured
JSON documents (the spec leaves the concrete wire format open as long as
round-trip fidelity holds). -/

inductive JValue where
  | null : JValue
  | jbool (b : Bool) : JValue
  | jint (n : Int) : JValue
  | jstr (s : String) : JValue
  | jarr (xs : List JValue) : JValue
  | jobj (fields : List (String × JValue)) : JValue

/-- Parse a `NodeStatus` back from its serialized enum value. -/
def statusOfString (s : String) : Option NodeStatus :=
  if s = "pending" then some .pending
  else if s = "running" then some .running
  else if s = "completed" then some .completed
  else if s = "failed" then some .failed
  else if s = "skipped" then some .skipped
  else Option.none

structure WorkflowCheckpoint where
  workflow_name : String
  state : List (String × JValue)
  node_statuses : List (String × NodeStatus)

/-- Serialize a checkpoint to its stored JSON document. -/
def encodeCheckpoint (c : WorkflowCheckpoint) : JValue :=
  .jobj [("workflow_name", .jstr c.workflow_name),
         ("state", .jobj c.state),
         ("node_statuses",
           .jobj (c.node_statuses.map (fun p => (p.1, JValue.jstr p.2.value))))]

def decodeStatuses : List (String × JValue) → Option (List (String × NodeStatus))
  | [] => some []
  | (k, .jstr s) :: rest =>
    match statusOfString s, decodeStatuses rest with
    | some st, some tl => some ((k, st) :: tl)
    | _, _ => Option.none
  | _ :: _ => Option.none

/-- Deserialize a checkpoint document; `none` models a corrupt artifact. -/
def decodeCheckpoint : JValue → Option WorkflowCheckpoint
  | .jobj fields =>
    match lookupS "workflow_name" fields, lookupS "state" fields,
        lookupS "node_statuses" fields with
    | some (.jstr n), some (.jobj st), some (.jobj sts) =>
      (decodeStatuses sts).map (fun d => ⟨n, st, d⟩)
    | _, _, _ => Option.none
  | _ => Option.none

/-- A checkpoint directory: artifacts keyed by checkpoint name. -/
def CheckpointDir : Type := List (String × JValue)

/-- `save_checkpoint(name, state, directory)`. -/
def save_checkpoint (wfName ckName : String) (state : List (String × JValue))
    (statuses : List (String × NodeStatus)) (dir : CheckpointDir) : CheckpointDir :=
  setS ckName (encodeCheckpoint ⟨wfName, state, statuses⟩) dir

/-- `load_checkpoint(name, directory)`: `CheckpointNotFoundError` when the
artifact is absent or does not decode. -/
def load_checkpoint (ckName : String) (dir : CheckpointDir) :
    Except String WorkflowCheckpoint :=
  match lookupS ckName dir with
  | Option.none => .error ("CheckpointNotFoundError: " ++ ckName)
  | some j =>
    match decodeCheckpoint j with
    | Option.none => .error ("CheckpointNotFoundError: corrupt checkpoint " ++ ckName)
    | some c => .ok c

/-! ### Concrete scenario graphs

Each graph below is written out directly (nodes, edges, and both derived
adjacency indices); sanity theorems later check that the `add_node` /
`add_edge` construction sequence produces exactly these values. -/

/-- An edge with an explicit priority. -/
def prioEdge (s t : String) (p : Int) : EdgeRec :=
  { source := s, target := t, priority := p }

/-- A single OUTPUT node. -/
def gOut : Graph :=
  { name := "out_demo", nodes := [("out", freshNode .output)] }

/-- A single default-logic node, used for re-invocation scenarios. -/
def gSolo : Graph :=
  { name := "solo", nodes := [("a", freshNode .agent)] }

/-- The node record of `a` in `gSolo` after one completed visit. -/
def soloDoneNode : NodeRec :=
  { type := .agent, status := .completed,
    result := some (.dict 1 [("node_id", .str "a"), ("type", .str "agent")]) }

/-- An execution state in which node `a` of `gSolo` has already COMPLETED
(one visit recorded, `state["iterations"] == 1`). -/
def esSolo : ExecState :=
  { nodes := [("a", soloDoneNode)],
    state := [("input", .int 0), ("iterations", .int 1),
              ("a", .dict 1 [("node_id", .str "a"), ("type", .str "agent")])],
    stateTag := 0,
    fresh := 2,
    trace := [.running "a", .completed "a"] }

/-- A true two-node cycle `A -> B -> A`; `A` is INPUT-typed so the graph
has an entry point. -/
def cycleAB : Graph :=
  { name := "cycle",
    nodes := [("A", freshNode .input), ("B", freshNode .agent)],
    edges := [plainEdge "A" "B", plainEdge "B" "A"],
    adjacency := [("A", [plainEdge "A" "B"]), ("B", [plainEdge "B" "A"])],
    reverse_adjacency := [("B", ["A"]), ("A", ["B"])] }

/-- A true two-node cycle of non-INPUT nodes: every node has an incoming
edge and none is INPUT-typed, so the graph has no entry point. -/
def cycleCD : Graph :=
  { name := "cycle_no_entry",
    nodes := [("C", freshNode .agent), ("D", freshNode .agent)],
    edges := [plainEdge "C" "D", plainEdge "D" "C"],
    adjacency := [("C", [plainEdge "C" "D"]), ("D", [plainEdge "D" "C"])],
    reverse_adjacency := [("D", ["C"]), ("C", ["D"])] }

/-- A node `S` with two sequential edges of priority 1 (to `A`) and
priority 2 (to `B`); each target is reachable only through `S`. -/
def gPrio : Graph :=
  { name := "prio",
    nodes := [("S", freshNode .agent), ("A", freshNode .agent), ("B", freshNode .agent)],
    edges := [prioEdge "S" "A" 1, prioEdge "S" "B" 2],
    adjacency := [("S", [prioEdge "S" "A" 1, prioEdge "S" "B" 2])],
    reverse_adjacency := [("A", ["S"]), ("B", ["S"])] }

/-- A graph in which `S` again has two sequential edges of priority 1 (to
`A`) and priority 2 (to `B`), but the entry node `E` also reaches `B`
first (priority 1) before reaching `S` (priority 2). -/
def gPrioShared : Graph :=
  { name := "prio_shared",
    nodes := [("E", freshNode .agent), ("S", freshNode .agent),
              ("A", freshNode .agent), ("B", freshNode .agent)],
    edges := [prioEdge "E" "B" 1, prioEdge "E" "S" 2,
              prioEdge "S" "A" 1, prioEdge "S" "B" 2],
    adjacency := [("E", [prioEdge "E" "B" 1, prioEdge "E" "S" 2]),
                  ("S", [prioEdge "S" "A" 1, prioEdge "S" "B" 2])],
    reverse_adjacency := [("B", ["E", "S"]), ("S", ["E"]), ("A", ["S"])] }

/-- Nodes and both derived indices of a linear chain over the given
(id, type) list, with unconditional priority-0 edges between consecutive
nodes. -/
def chainEdgesOf : List String → List EdgeRec
  | [] => []
  | [_] => []
  | a :: b :: rest => plainEdge a b :: chainEdgesOf (b :: rest)

def chainAdjOf : List String → List (String × List EdgeRec)
  | [] => []
  | [_] => []
  | a :: b :: rest => (a, [plainEdge a b]) :: chainAdjOf (b :: rest)

def chainRadjOf : List String → List (String × List String)
  | [] => []
  | [_] => []
  | a :: b :: rest => (b, [a]) :: chainRadjOf (b :: rest)

/-- The linear-chain graph over the given (id, type) list. -/
def chainGraph (nds : List (String × NodeType)) : Graph :=
  { name := "chain",
    nodes := nds.map (fun p => (p.1, freshNode p.2)),
    edges := chainEdgesOf (nds.map (fun p => p.1)),
    adjacency := chainAdjOf (nds.map (fun p => p.1)),
    reverse_adjacency := chainRadjOf (nds.map (fun p => p.1)) }

/-- A concrete three-node chain used as a witness instance. -/
def chain3nds : List (String × NodeType) :=
  [("n0", .input), ("n1", .agent), ("n2", .output)]

/-- The trace produced by visiting the given node ids in order, each
exactly once. -/
def chainTrace : List String → List Event
  | [] => []
  | x :: rest => .running x :: .completed x :: chainTrace rest

/-- An agent oracle that answers every request with a fixed echo dict
(tagged 1000; the tag models the identity of an object owned by the
external collaborator). -/
def echoOracle : String → List (String × Value) → Except String Value :=
  fun aid _ => .ok (.dict 1000 [("echo", .str aid)])

/-- A small two-node graph for `add_edge` scenarios. -/
def gXY : Graph :=
  { name := "xy", nodes := [("x", freshNode .input), ("y", freshNode .agent)] }

/-- A two-node graph start (INPUT) -> out (OUTPUT), built as `add_node` +
`add_edge` would leave it; used as the concrete enhanced-engine scenario. -/
def gStartOut : Graph :=
  { name := "start_out",
    nodes := [("start", freshNode .input), ("out", freshNode .output)],
    edges := [plainEdge "start" "out"],
    adjacency := [("start", [plainEdge "start" "out"])],
    reverse_adjacency := [("out", ["start"])] }

/-! ### Invariant predicates used by the run-level theorems -/

/-- No node of the execution state is named `"iterations"`; under this
(realistic) naming discipline no node result can overwrite the iteration
counter, which is what makes `max_iterations + 1` recursion steps
sufficient. -/
def noIterNode (es : ExecState) : Prop :=
  lookupS "iterations" es.nodes = Option.none

/-- The iteration counter read from the state is at least `k`. -/
def iterGE (k : Int) (es : ExecState) : Prop :=
  ∀ it, readIter es.state = some it → k ≤ it

/-- Every key of the state mapping is a bookkeeping key, a key of the
initial state, or the id of a node that has COMPLETED. -/
def stateKeysProvenance (initKeys : List String) (es : ExecState) : Prop :=
  ∀ k, (lookupS k es.state).isSome = true →
    k = "input" ∨ k = "iterations" ∨ k ∈ initKeys ∨
    ∃ nd, lookupS k es.nodes = some nd ∧ nd.status = NodeStatus.completed

/-- A value is a good OUTPUT result with respect to the state tag `σ0` and
the output node id `o`: a dict that is not the state object and has no
entry keyed by `o`. -/
def goodOutResult (σ0 : Nat) (o : String) (r : Value) : Prop :=
  ∃ t en, r = .dict t en ∧ t ≠ σ0 ∧ lookupS o en = Option.none

/-- The run invariant behind the amended claim C2 (EnhancedGraph): the
state keeps its identity tag `σ0`, the allocation counter stays above it,
state keys have a provenance, and any recorded result of the OUTPUT node
`o` is a good copy. -/
def outInv (o : String) (σ0 : Nat) (initKeys : List String) (es : ExecState) : Prop :=
  es.stateTag = σ0 ∧ σ0 < es.fresh ∧ stateKeysProvenance initKeys es ∧
  ∀ nd, lookupS o es.nodes = some nd → nd.type = .output →
    ∀ r, nd.result = some r → goodOutResult σ0 o r

/-- Every node currently COMPLETED has a completion event on record. -/
def completedHasEvent (es : ExecState) : Prop :=
  ∀ n nd, lookupS n es.nodes = some nd → nd.status = NodeStatus.completed →
    Event.completed n ∈ es.trace

/-- Phase before `t2` has been dispatched: neither of its events exists. -/
def C6pre (t2 : String) (es : ExecState) : Prop :=
  Event.running t2 ∉ es.trace ∧ Event.completed t2 ∉ es.trace

/-- Phase after `t2` was dispatched: its RUNNING event is on record with
the completion of `t1` strictly before it. -/
def C6post (t1 t2 : String) (es : ExecState) : Prop :=
  ∃ A B, es.trace = A ++ Event.running t2 :: B ∧ Event.completed t1 ∈ A

/-- The C6 invariant: completion events are faithful, and the run is
either before `t2`'s dispatch or past it with `t1` completed first. -/
def C6inv (t1 t2 : String) (es : ExecState) : Prop :=
  completedHasEvent es ∧ (C6pre t2 es ∨ C6post t1 t2 es)

/-- The frame relation of a node execution: the state object's identity is
preserved, the trace only grows, and any key other than the iteration
counter whose node never entered RUNNING in the new trace segment keeps
its value. -/
def frameRel (es es2 : ExecState) : Prop :=
  es2.stateTag = es.stateTag ∧
  ∃ Δ, es2.trace = es.trace ++ Δ ∧
    ∀ k, k ≠ "iterations" → Event.running k ∉ Δ →
      lookupS k es2.state = lookupS k es.state

/-! ## Lemmas about the dict primitives -/

theorem lookupS_setS_self {α : Type} (k : String) (v : α) (st : List (String × α)) :
    lookupS k (setS k v st) = some v := by
  induction st with
  | nil => simp [setS, lookupS]
  | cons p rest ih =>
    obtain ⟨k2, v2⟩ := p
    by_cases h : k2 = k
    · simp [setS, h, lookupS]
    · simp [setS, h, lookupS, ih]

theorem lookupS_setS_ne {α : Type} (j k : String) (v : α) (st : List (String × α))
    (h : j ≠ k) : lookupS j (setS k v st) = lookupS j st := by
  have hk : k ≠ j := Ne.symm h
  induction st with
  | nil => simp [setS, lookupS, hk]
  | cons p rest ih =>
    obtain ⟨k2, v2⟩ := p
    by_cases h2 : k2 = k
    · subst h2
      simp [setS, lookupS, hk]
    · by_cases h3 : k2 = j <;> simp [setS, h2, lookupS, h3, ih, h]

theorem lookupS_updS_ne {α : Type} (j k : String) (f : α → α) (st : List (String × α))
    (h : j ≠ k) : lookupS j (updS k f st) = lookupS j st := by
  have hk : k ≠ j := Ne.symm h
  induction st with
  | nil => simp [updS, lookupS]
  | cons p rest ih =>
    obtain ⟨k2, v2⟩ := p
    by_cases h2 : k2 = k
    · subst h2
      simp [updS, lookupS, hk]
    · by_cases h3 : k2 = j <;> simp [updS, h2, lookupS, h3, ih, h]

theorem lookupS_updS_self {α : Type} (k : String) (f : α → α) (st : List (String × α)) :
    lookupS k (updS k f st) = (lookupS k st).map f := by
  induction st with
  | nil => simp [updS, lookupS]
  | cons p rest ih =>
    obtain ⟨k2, v2⟩ := p
    by_cases h : k2 = k
    · simp [updS, h, lookupS]
    · simp [updS, h, lookupS, ih]

theorem lookupS_bucketAdd_self {α : Type} (k : String) (x : α)
    (b : List (String × List α)) :
    (lookupS k (bucketAdd k x b)).getD [] = (lookupS k b).getD [] ++ [x] := by
  induction b with
  | nil => simp [bucketAdd, lookupS]
  | cons p rest ih =>
    obtain ⟨k2, xs⟩ := p
    by_cases h : k2 = k
    · simp [bucketAdd, h, lookupS]
    · simp [bucketAdd, h, lookupS, ih]

theorem lookupS_bucketAdd_ne {α : Type} (j k : String) (x : α)
    (b : List (String × List α)) (h : j ≠ k) :
    lookupS j (bucketAdd k x b) = lookupS j b := by
  have hk : k ≠ j := Ne.symm h
  induction b with
  | nil => simp [bucketAdd, lookupS, hk]
  | cons p rest ih =>
    obtain ⟨k2, xs⟩ := p
    by_cases h2 : k2 = k
    · subst h2
      simp [bucketAdd, lookupS, hk]
    · by_cases h3 : k2 = j <;> simp [bucketAdd, h2, lookupS, h3, ih, h]

/-! ## Sanity checks: the scenario graphs are exactly what the
`add_node`/`add_edge` construction sequence produces -/

theorem cycleAB_is_api_built :
    (do
      let g0 : Graph := { name := "cycle" }
      let g1 ← add_node g0 "A" .input
      let g2 ← add_node g1 "B" .agent
      let g3 ← add_edge g2 (plainEdge "A" "B")
      add_edge g3 (plainEdge "B" "A") : Except String Graph) = .ok cycleAB := rfl

theorem gPrioShared_is_api_built :
    (do
      let g0 : Graph := { name := "prio_shared" }
      let g1 ← add_node g0 "E" .agent
      let g2 ← add_node g1 "S" .agent
      let g3 ← add_node g2 "A" .agent
      let g4 ← add_node g3 "B" .agent
      let g5 ← add_edge g4 (prioEdge "E" "B" 1)
      let g6 ← add_edge g5 (prioEdge "E" "S" 2)
      let g7 ← add_edge g6 (prioEdge "S" "A" 1)
      add_edge g7 (prioEdge "S" "B" 2) : Except String Graph) = .ok gPrioShared := rfl

theorem chainGraph_chain3_is_api_built :
    (do
      let g0 : Graph := { name := "chain" }
      let g1 ← add_node g0 "n0" .input
      let g2 ← add_node g1 "n1" .agent
      let g3 ← add_node g2 "n2" .output
      let g4 ← add_edge g3 (plainEdge "n0" "n1")
      add_edge g4 (plainEdge "n1" "n2") : Except String Graph) =
      .ok (chainGraph chain3nds) := rfl

/-! ## Claim C1: checkpoint save/load round trip -/

theorem statusOfString_value (s : NodeStatus) : statusOfString s.value = some s := by
  cases s <;> rfl

theorem decodeStatuses_roundtrip (l : List (String × NodeStatus)) :
    decodeStatuses (l.map (fun p => (p.1, JValue.jstr p.2.value))) = some l := by
  induction l with
  | nil => rfl
  | cons p rest ih =>
    obtain ⟨k, s⟩ := p
    simp [decodeStatuses, statusOfString_value, ih]

/-- Claim C1: for every checkpoint name, directory, and state mapping of
JSON-compatible values, `load_checkpoint(name, dir)` after
`save_checkpoint(name, state, dir)` yields a checkpoint object whose
`.state` equals the saved state (indeed the whole checkpoint — name, state
and per-node statuses — round-trips). -/
theorem claim_C1_roundtrip (wfName ckName : String) (st : List (String × JValue))
    (statuses : List (String × NodeStatus)) (dir : CheckpointDir) :
    load_checkpoint ckName (save_checkpoint wfName ckName st statuses dir) =
      .ok ⟨wfName, st, statuses⟩ := by
  unfold load_checkpoint save_checkpoint
  rw [lookupS_setS_self]
  simp [decodeCheckpoint, encodeCheckpoint, lookupS, decodeStatuses_roundtrip]

/-! ## Claim C7: `add_edge` endpoint checking -/

/-- Claim C7: `add_edge` with a missing endpoint fails (before any
mutation — the checks precede all updates, and the error result carries no
modified graph); with both endpoints present it appends the edge to the
edge list and extends exactly the two adjacency buckets involved. -/
theorem claim_C7_add_edge (g : Graph) (e : EdgeRec) :
    ((lookupS e.source g.nodes).isNone = true ∨ (lookupS e.target g.nodes).isNone = true →
      ∃ m, add_edge g e = .error m) ∧
    ((lookupS e.source g.nodes).isNone = false → (lookupS e.target g.nodes).isNone = false →
      ∃ g2, add_edge g e = .ok g2 ∧
        g2.nodes = g.nodes ∧
        g2.edges = g.edges ++ [e] ∧
        get_outgoing_edges g2 e.source = get_outgoing_edges g e.source ++ [e] ∧
        get_incoming_nodes g2 e.target = get_incoming_nodes g e.target ++ [e.source] ∧
        (∀ id, id ≠ e.source → get_outgoing_edges g2 id = get_outgoing_edges g id) ∧
        (∀ id, id ≠ e.target → get_incoming_nodes g2 id = get_incoming_nodes g id)) := by
  constructor
  · intro h
    unfold add_edge
    rcases h with h | h
    · rw [h]
      exact ⟨_, rfl⟩
    · rw [h]
      by_cases hs : (lookupS e.source g.nodes).isNone = true
      · rw [hs]
        exact ⟨_, rfl⟩
      · simp only [Bool.not_eq_true] at hs
        rw [hs]
        exact ⟨_, rfl⟩
  · intro hs ht
    have hok : add_edge g e = .ok { g with
        edges := g.edges ++ [e],
        adjacency := bucketAdd e.source e g.adjacency,
        reverse_adjacency := bucketAdd e.target e.source g.reverse_adjacency } := by
      unfold add_edge
      rw [hs, ht]
      simp
    refine ⟨_, hok, rfl, rfl, ?_, ?_, ?_, ?_⟩
    · exact lookupS_bucketAdd_self e.source e g.adjacency
    · exact lookupS_bucketAdd_self e.target e.source g.reverse_adjacency
    · intro id hid
      unfold get_outgoing_edges
      rw [lookupS_bucketAdd_ne id e.source e g.adjacency hid]
    · intro id hid
      unfold get_incoming_nodes
      rw [lookupS_bucketAdd_ne id e.target e.source g.reverse_adjacency hid]

/-- Witness for C7 at a concrete graph: adding an edge to a missing target
fails, adding an edge between the two existing nodes succeeds and extends
the indices. -/
theorem claim_C7_witness :
    (∃ m, add_edge gXY (plainEdge "x" "z") = .error m) ∧
    (∃ g2, add_edge gXY (plainEdge "x" "y") = .ok g2 ∧
      g2.nodes = gXY.nodes ∧
      g2.edges = gXY.edges ++ [plainEdge "x" "y"] ∧
      get_outgoing_edges g2 "x" = get_outgoing_edges gXY "x" ++ [plainEdge "x" "y"] ∧
      get_incoming_nodes g2 "y" = get_incoming_nodes gXY "y" ++ ["x"] ∧
      (∀ id, id ≠ "x" → get_outgoing_edges g2 id = get_outgoing_edges gXY id) ∧
      (∀ id, id ≠ "y" → get_incoming_nodes g2 id = get_incoming_nodes gXY id)) :=
  ⟨(claim_C7_add_edge gXY (plainEdge "x" "z")).1 (Or.inr rfl),
   (claim_C7_add_edge gXY (plainEdge "x" "y")).2 rfl rfl⟩

/-! ## Claims C3 and C9: re-invoking `_execute_node` on a COMPLETED node -/

/-- One evaluation step of `_execute_node` on an already-COMPLETED node
with remaining budget: the call increments `state["iterations"]` and
changes nothing else. -/
theorem execute_node_completed_skip (L : LogicFn) (g : Graph) (maxIter : Int)
    (fuel : Nat) (id : String) (es : ExecState) (nd : NodeRec) (it : Int)
    (hit : lookupS "iterations" es.state = some (.int it))
    (hlt : it < maxIter)
    (hnd : lookupS id es.nodes = some nd)
    (hst : nd.status = .completed) :
    execute_node L g maxIter (fuel + 1) id es =
      .ok { es with state := setS "iterations" (.int (it + 1)) es.state } := by
  simp only [execute_node, readIter, hit]
  rw [if_neg (not_le.mpr hlt)]
  simp only [hnd, hst]
  simp

/-- One evaluation step of `_execute_node` with the budget exhausted: the
maximum-iterations error is raised before anything is touched. -/
theorem execute_node_budget_exhausted (L : LogicFn) (g : Graph) (maxIter : Int)
    (fuel : Nat) (id : String) (es : ExecState) (it : Int)
    (hit : lookupS "iterations" es.state = some (.int it))
    (hge : maxIter ≤ it) :
    execute_node L g maxIter (fuel + 1) id es = .err (maxIterMsg maxIter) es := by
  simp only [execute_node, readIter, hit]
  rw [if_pos hge]

/-- Claim C3, amended: invoking `_execute_node` on an already-COMPLETED
node leaves the node's result and status unchanged, does not rewrite
`state[node_id]`, executes no node logic and follows no edges — but it is
not a strict no-op on the shared state: it increments
`state["iterations"]` by one, and if the iteration budget is already
exhausted it raises the maximum-iterations error instead. -/
theorem claim_C3_amended (L : LogicFn) (g : Graph) (maxIter : Int)
    (fuel : Nat) (id : String) (es : ExecState) (nd : NodeRec) (it : Int)
    (hit : lookupS "iterations" es.state = some (.int it))
    (hnd : lookupS id es.nodes = some nd)
    (hst : nd.status = .completed) :
    (it < maxIter → ∃ es2,
        execute_node L g maxIter (fuel + 1) id es = .ok es2 ∧
        lookupS id es2.nodes = some nd ∧
        (id ≠ "iterations" → lookupS id es2.state = lookupS id es.state) ∧
        lookupS "iterations" es2.state = some (.int (it + 1)) ∧
        es2.trace = es.trace) ∧
    (maxIter ≤ it →
        execute_node L g maxIter (fuel + 1) id es = .err (maxIterMsg maxIter) es) := by
  constructor
  · intro hlt
    refine ⟨_, execute_node_completed_skip L g maxIter fuel id es nd it hit hlt hnd hst,
      hnd, ?_, ?_, rfl⟩
    · intro hne
      exact lookupS_setS_ne id "iterations" (.int (it + 1)) es.state hne
    · exact lookupS_setS_self "iterations" (.int (it + 1)) es.state
  · intro hge
    exact execute_node_budget_exhausted L g maxIter fuel id es it hit hge

/-- Counterexample to claim C3 as stated: on a state in which node `a` is
COMPLETED and `state["iterations"] == 1`, re-invoking `_execute_node`
mutates the shared state (the counter becomes 2), and with an exhausted
budget the re-invocation even raises the maximum-iterations error — so the
call is not a no-op on the shared state. -/
theorem claim_C3_counterexample :
    lookupS "iterations" esSolo.state = some (.int 1) ∧
    (execute_node execute_node_logic_base gSolo 2 10 "a" esSolo).iterValOf =
      some (.int 2) ∧
    some (Value.int 2) ≠ some (Value.int 1) ∧
    (execute_node execute_node_logic_base gSolo 1 10 "a" esSolo).errMsgOf =
      some (maxIterMsg 1) := by
  refine ⟨rfl, rfl, ?_, rfl⟩
  simp

/-- Witness for the amended C3 at a concrete input. -/
theorem claim_C3_witness :
    (∃ es2, execute_node execute_node_logic_base gSolo 5 9 "a" esSolo = .ok es2 ∧
      lookupS "a" es2.nodes = some soloDoneNode ∧
      ("a" ≠ "iterations" → lookupS "a" es2.state = lookupS "a" esSolo.state) ∧
      lookupS "iterations" es2.state = some (.int 2) ∧
      es2.trace = esSolo.trace) ∧
    execute_node execute_node_logic_base gSolo 1 9 "a" esSolo =
      .err (maxIterMsg 1) esSolo :=
  ⟨(claim_C3_amended execute_node_logic_base gSolo 5 8 "a" esSolo _ 1 rfl rfl rfl).1
      (by decide),
   (claim_C3_amended execute_node_logic_base gSolo 1 8 "a" esSolo _ 1 rfl rfl rfl).2
      (by decide)⟩

/-- Claim C9: whenever `_execute_node` is called on a node whose status is
already COMPLETED and the iteration budget is not exhausted, it returns
without executing the node's logic (no RUNNING/COMPLETED event is
appended) and without following any outgoing edge: no node record changes,
and the only state write is the iteration counter. -/
theorem claim_C9_completed_no_revisit (L : LogicFn) (g : Graph) (maxIter : Int)
    (fuel : Nat) (id : String) (es : ExecState) (nd : NodeRec) (it : Int)
    (hit : lookupS "iterations" es.state = some (.int it))
    (hlt : it < maxIter)
    (hnd : lookupS id es.nodes = some nd)
    (hst : nd.status = .completed) :
    ∃ es2, execute_node L g maxIter (fuel + 1) id es = .ok es2 ∧
      es2.nodes = es.nodes ∧
      es2.trace = es.trace ∧
      es2.state = setS "iterations" (.int (it + 1)) es.state :=
  ⟨_, execute_node_completed_skip L g maxIter fuel id es nd it hit hlt hnd hst,
   rfl, rfl, rfl⟩

/-- Witness for C9 at a concrete input. -/
theorem claim_C9_witness :
    ∃ es2, execute_node execute_node_logic_base gSolo 10 4 "a" esSolo = .ok es2 ∧
      es2.nodes = esSolo.nodes ∧
      es2.trace = esSolo.trace ∧
      es2.state = setS "iterations" (.int 2) esSolo.state :=
  claim_C9_completed_no_revisit execute_node_logic_base gSolo 10 3 "a" esSolo _ 1
    rfl (by decide) rfl rfl

/-! ## Claim C8: `run` with `max_iterations = 0` -/

/-- Claim C8, amended: on every non-empty graph that passes validation and
has an entry point, `run` with `max_iterations = 0` raises the
maximum-iterations error before any node's logic executes: no RUNNING or
COMPLETED event is recorded, every node record (hence every status) is
exactly as supplied, and the state holds only the bookkeeping writes of
`run` itself (`input` and `iterations`), no node result. -/
theorem claim_C8_amended (L : LogicFn) (g : Graph) (input : Value)
    (state? : Option TaggedDict) (freshStart : Nat)
    (hne : g.nodes.isEmpty = false)
    (hval : validateErr g = Option.none)
    (hentry : (entry_points g).isEmpty = false) :
    ∃ es, run L g input 0 state? freshStart = .err (maxIterMsg 0) es ∧
      es.nodes = g.nodes ∧
      es.trace = [] ∧
      es.state = setS "iterations" (.int 0) (setS "input" input
        (match state? with | Option.none => [] | some d => d.entries)) := by
  cases hE : entry_points g with
  | nil => rw [hE] at hentry; simp at hentry
  | cons e rest =>
    unfold run
    rw [hne, hval, hE]
    simp only [List.isEmpty_cons, Bool.false_eq_true, if_false]
    rw [show (0 : Int).toNat + 1 = 0 + 1 from rfl]
    unfold execEntries
    rw [execute_node_budget_exhausted L g 0 0 e _ 0 (lookupS_setS_self _ _ _) (le_refl 0)]
    refine ⟨_, rfl, rfl, rfl, ?_⟩
    cases state? <;> rfl

/-- Counterexample to claim C8 as stated over *every* non-empty graph:
a non-empty two-node cycle of non-INPUT nodes has no entry point, so `run`
with `max_iterations = 0` raises the no-entry-point error, not the
maximum-iterations error. -/
theorem claim_C8_counterexample :
    cycleCD.nodes.isEmpty = false ∧
    (run_base cycleCD (.int 7) 0 Option.none 0).errMsgOf =
      some "No entry point found in graph" ∧
    some "No entry point found in graph" ≠ some (maxIterMsg 0) := by
  refine ⟨rfl, rfl, ?_⟩
  decide

/-- Witness for the amended C8 at a concrete input. -/
theorem claim_C8_witness :
    ∃ es, run execute_node_logic_base gSolo (.int 7) 0 Option.none 0 =
        .err (maxIterMsg 0) es ∧
      es.nodes = gSolo.nodes ∧
      es.trace = [] ∧
      es.state = setS "iterations" (.int 0) (setS "input" (.int 7) []) :=
  claim_C8_amended execute_node_logic_base gSolo (.int 7) Option.none 0 rfl rfl rfl

/-! ## Claim C6: sequential-edge priority ordering -/

/-- Counterexample to claim C6 as stated: in `gPrioShared`, node `S` has
exactly two sequential passing edges, priority 1 to `A` and priority 2 to
`B`; yet `B` enters RUNNING (having been reached from the entry node
first) strictly before `A` reaches COMPLETED. -/
theorem claim_C6_counterexample :
    get_outgoing_edges gPrioShared "S" = [prioEdge "S" "A" 1, prioEdge "S" "B" 2] ∧
    (run_base gPrioShared (.int 7) 10 Option.none 0).traceOf =
      some [.running "E", .completed "E", .running "B", .completed "B",
            .running "S", .completed "S", .running "A", .completed "A"] ∧
    idxOfEvent (.running "B")
        ((run_base gPrioShared (.int 7) 10 Option.none 0).traceOf.getD []) <
      idxOfEvent (.completed "A")
        ((run_base gPrioShared (.int 7) 10 Option.none 0).traceOf.getD []) :=
  ⟨rfl, rfl, by decide⟩

/-! ## Claim C2, counterexample part: the base engine's OUTPUT result is
the live state -/

/-- Counterexample to claim C2 as stated over every run: in the base
`Graph` engine, the completed OUTPUT node's recorded result carries the
very identity tag of the live state mapping — it *is* the live state
object, not an independent copy. -/
theorem claim_C2_counterexample :
    (run_base gOut (.int 1) 10 Option.none 0).nodeStatusOf "out" = some .completed ∧
    ((run_base gOut (.int 1) 10 Option.none 0).nodeResultOf "out").bind Value.dictTag =
      (run_base gOut (.int 1) 10 Option.none 0).stateTagOf ∧
    (run_base gOut (.int 1) 10 Option.none 0).stateTagOf = some 0 :=
  ⟨rfl, rfl, rfl⟩

/-! ## Claim C4: termination machinery -/

theorem execGather_preserve (step : String → ExecState → ExecResult)
    (Q : ExecState → Prop)
    (hstep : ∀ id es es2, Q es → step id es = .ok es2 → Q es2) :
    ∀ l es es2, Q es → execGather step l es = .ok es2 → Q es2 := by
  intro l
  induction l with
  | nil => intro es es2 hQ h; rw [execGather] at h; cases h; exact hQ
  | cons e rest ih =>
    intro es es2 hQ h
    rw [execGather] at h
    cases hs : step e.target es with
    | ok es3 =>
      simp only [hs] at h
      exact ih es3 es2 (hstep e.target es es3 hQ hs) h
    | err m es3 => simp only [hs] at h; cases h
    | outOfFuel => simp only [hs] at h; cases h

theorem execSequential_preserve (step : String → ExecState → ExecResult)
    (Q : ExecState → Prop)
    (hstep : ∀ id es es2, Q es → step id es = .ok es2 → Q es2) :
    ∀ l es es2, Q es → execSequential step l es = .ok es2 → Q es2 := by
  intro l
  induction l with
  | nil => intro es es2 hQ h; rw [execSequential] at h; cases h; exact hQ
  | cons e rest ih =>
    intro es es2 hQ h
    rw [execSequential] at h
    by_cases hc : evaluate_condition e es.state = true
    · rw [if_pos hc] at h
      cases hs : step e.target es with
      | ok es3 =>
        simp only [hs] at h
        exact ih es3 es2 (hstep e.target es es3 hQ hs) h
      | err m es3 => simp only [hs] at h; cases h
      | outOfFuel => simp only [hs] at h; cases h
    · rw [if_neg hc] at h
      exact ih es es2 hQ h

theorem execEntries_preserve (L : LogicFn) (g : Graph) (maxIter : Int) (fuel : Nat)
    (Q : ExecState → Prop)
    (hstep : ∀ id es es2, Q es → execute_node L g maxIter fuel id es = .ok es2 → Q es2) :
    ∀ l es es2, Q es → execEntries L g maxIter fuel l es = .ok es2 → Q es2 := by
  intro l
  induction l with
  | nil => intro es es2 hQ h; rw [execEntries] at h; cases h; exact hQ
  | cons e rest ih =>
    intro es es2 hQ h
    rw [execEntries] at h
    cases hs : execute_node L g maxIter fuel e es with
    | ok es3 =>
      simp only [hs] at h
      exact ih es3 es2 (hstep e es es3 hQ hs) h
    | err m es3 => simp only [hs] at h; cases h
    | outOfFuel => simp only [hs] at h; cases h

theorem execute_node_preserves_mono (L : LogicFn) (g : Graph) (maxIter : Int) :
    ∀ (fuel : Nat) (k : Int) (id : String) (es es2 : ExecState),
    noIterNode es → iterGE k es →
    execute_node L g maxIter fuel id es = .ok es2 →
    noIterNode es2 ∧ iterGE k es2 := by
  intro fuel
  induction fuel with
  | zero => intro k id es es2 _ _ h; rw [execute_node] at h; cases h
  | succ f ih =>
    intro k id es es2 hN hG h
    rw [execute_node] at h
    cases hri : readIter es.state with
    | none => simp only [hri] at h; cases h
    | some it =>
      simp only [hri] at h
      by_cases hle : maxIter ≤ it
      · rw [if_pos hle] at h; cases h
      rw [if_neg hle] at h
      have hk : k ≤ it := hG it hri
      cases hnd : lookupS id es.nodes with
      | none => simp only [hnd] at h; cases h
      | some nd =>
        simp only [hnd] at h
        -- invariants of the state after the iteration increment
        have hN1 : noIterNode { es with
            state := setS "iterations" (.int (it + 1)) es.state } := hN
        have hG1 : iterGE k { es with
            state := setS "iterations" (.int (it + 1)) es.state } := by
          intro it2 h2
          simp only [readIter, lookupS_setS_self, Option.some.injEq] at h2
          omega
        by_cases hco : nd.status = NodeStatus.completed
        · rw [if_pos hco] at h
          cases h
          exact ⟨hN1, hG1⟩
        rw [if_neg hco] at h
        -- id can not be "iterations" because the node exists
        have hid : id ≠ "iterations" := by
          intro hq; rw [hq] at hnd; rw [noIterNode] at hN; rw [hN] at hnd; cases hnd
        cases hL : L id nd { es with
            nodes := updS id (fun n => { n with status := .running }) es.nodes,
            state := setS "iterations" (.int (it + 1)) es.state,
            trace := es.trace ++ [.running id] } with
        | error msg => simp only [hL] at h; rw [nodeFail] at h; cases h
        | ok p =>
          obtain ⟨result, fresh2⟩ := p
          simp only [hL] at h
          -- the state after completing the node
          have hN3 : noIterNode { es with
              nodes := updS id (fun n => { n with result := some result, status := .completed })
                (updS id (fun n => { n with status := .running }) es.nodes),
              fresh := fresh2,
              trace := (es.trace ++ [.running id]) ++ [.completed id],
              state := setS id result (setS "iterations" (.int (it + 1)) es.state) } := by
            rw [noIterNode] at hN ⊢
            rw [lookupS_updS_ne _ _ _ _ (Ne.symm hid), lookupS_updS_ne _ _ _ _ (Ne.symm hid)]
            exact hN
          have hG3 : iterGE k { es with
              nodes := updS id (fun n => { n with result := some result, status := .completed })
                (updS id (fun n => { n with status := .running }) es.nodes),
              fresh := fresh2,
              trace := (es.trace ++ [.running id]) ++ [.completed id],
              state := setS id result (setS "iterations" (.int (it + 1)) es.state) } := by
            intro it2 h2
            rw [readIter, lookupS_setS_ne _ _ _ _ (Ne.symm hid), lookupS_setS_self] at h2
            cases h2
            omega
          -- the recursive dispatch preserves the invariant
          have hQstep : ∀ id3 es3 es4, (noIterNode es3 ∧ iterGE k es3) →
              execute_node L g maxIter f id3 es3 = .ok es4 →
              noIterNode es4 ∧ iterGE k es4 := by
            intro id3 es3 es4 hQ3 h3
            exact ih k id3 es3 es4 hQ3.1 hQ3.2 h3
          cases hGat : execGather (fun id2 es2 => execute_node L g maxIter f id2 es2)
              (List.filter (fun e => evaluate_condition e
                  (setS id result (setS "iterations" (.int (it + 1)) es.state)))
                (List.filter (fun e => e.parallel) (get_outgoing_edges g id)))
              { es with
                nodes := updS id (fun n => { n with result := some result, status := .completed })
                  (updS id (fun n => { n with status := .running }) es.nodes),
                fresh := fresh2,
                trace := (es.trace ++ [.running id]) ++ [.completed id],
                state := setS id result (setS "iterations" (.int (it + 1)) es.state) } with
          | ok es4 =>
            simp only [hGat] at h
            have hQ4 := execGather_preserve _ _ hQstep _ _ _ ⟨hN3, hG3⟩ hGat
            cases hSeq : execSequential (fun id2 es2 => execute_node L g maxIter f id2 es2)
                (sortEdges (List.filter (fun e => !e.parallel) (get_outgoing_edges g id)))
                es4 with
            | ok es5 =>
              simp only [hSeq] at h
              cases h
              exact execSequential_preserve _ _ hQstep _ _ _ hQ4 hSeq
            | err m es5 => simp only [hSeq] at h; rw [nodeFail] at h; cases h
            | outOfFuel => simp only [hSeq] at h; cases h
          | err m es4 => simp only [hGat] at h; rw [nodeFail] at h; cases h
          | outOfFuel => simp only [hGat] at h; cases h

theorem execGather_no_oof (step : String → ExecState → ExecResult)
    (Q : ExecState → Prop)
    (hpres : ∀ id es es2, Q es → step id es = .ok es2 → Q es2)
    (hoof : ∀ id es, Q es → step id es ≠ .outOfFuel) :
    ∀ l es, Q es → execGather step l es ≠ .outOfFuel := by
  intro l
  induction l with
  | nil => intro es hQ h; rw [execGather] at h; cases h
  | cons e rest ih =>
    intro es hQ h
    rw [execGather] at h
    cases hs : step e.target es with
    | ok es3 =>
      simp only [hs] at h
      exact ih es3 (hpres e.target es es3 hQ hs) h
    | err m es3 => simp only [hs] at h; cases h
    | outOfFuel => exact hoof e.target es hQ hs

theorem execSequential_no_oof (step : String → ExecState → ExecResult)
    (Q : ExecState → Prop)
    (hpres : ∀ id es es2, Q es → step id es = .ok es2 → Q es2)
    (hoof : ∀ id es, Q es → step id es ≠ .outOfFuel) :
    ∀ l es, Q es → execSequential step l es ≠ .outOfFuel := by
  intro l
  induction l with
  | nil => intro es hQ h; rw [execSequential] at h; cases h
  | cons e rest ih =>
    intro es hQ h
    rw [execSequential] at h
    by_cases hc : evaluate_condition e es.state = true
    · rw [if_pos hc] at h
      cases hs : step e.target es with
      | ok es3 =>
        simp only [hs] at h
        exact ih es3 (hpres e.target es es3 hQ hs) h
      | err m es3 => simp only [hs] at h; cases h
      | outOfFuel => exact hoof e.target es hQ hs
    · rw [if_neg hc] at h
      exact ih es hQ h

theorem execEntries_no_oof (L : LogicFn) (g : Graph) (maxIter : Int) (fuel : Nat)
    (Q : ExecState → Prop)
    (hpres : ∀ id es es2, Q es → execute_node L g maxIter fuel id es = .ok es2 → Q es2)
    (hoof : ∀ id es, Q es → execute_node L g maxIter fuel id es ≠ .outOfFuel) :
    ∀ l es, Q es → execEntries L g maxIter fuel l es ≠ .outOfFuel := by
  intro l
  induction l with
  | nil => intro es hQ h; rw [execEntries] at h; cases h
  | cons e rest ih =>
    intro es hQ h
    rw [execEntries] at h
    cases hs : execute_node L g maxIter fuel e es with
    | ok es3 =>
      simp only [hs] at h
      exact ih es3 (hpres e es es3 hQ hs) h
    | err m es3 => simp only [hs] at h; cases h
    | outOfFuel => exact hoof e es hQ hs

theorem execute_node_no_oof (L : LogicFn) (g : Graph) (maxIter : Int) :
    ∀ (fuel : Nat) (id : String) (es : ExecState),
    noIterNode es → (∀ it, readIter es.state = some it → maxIter < it + fuel) →
    0 < fuel →
    execute_node L g maxIter fuel id es ≠ .outOfFuel := by
  intro fuel
  induction fuel with
  | zero =>
    intro id es hN hB hpos h
    omega
  | succ f ih =>
    intro id es hN hB hpos h
    rw [execute_node] at h
    cases hri : readIter es.state with
    | none => simp only [hri] at h; cases h
    | some it =>
      simp only [hri] at h
      by_cases hle : maxIter ≤ it
      · rw [if_pos hle] at h; cases h
      rw [if_neg hle] at h
      have hbd : maxIter < it + (f + 1) := hB it hri
      cases hnd : lookupS id es.nodes with
      | none => simp only [hnd] at h; cases h
      | some nd =>
        simp only [hnd] at h
        by_cases hco : nd.status = NodeStatus.completed
        · rw [if_pos hco] at h; cases h
        rw [if_neg hco] at h
        have hid : id ≠ "iterations" := by
          intro hq; rw [hq] at hnd; rw [noIterNode] at hN; rw [hN] at hnd; cases hnd
        cases hL : L id nd { es with
            nodes := updS id (fun n => { n with status := .running }) es.nodes,
            state := setS "iterations" (.int (it + 1)) es.state,
            trace := es.trace ++ [.running id] } with
        | error msg => simp only [hL] at h; rw [nodeFail] at h; cases h
        | ok p =>
          obtain ⟨result, fresh2⟩ := p
          simp only [hL] at h
          have hN3 : noIterNode { es with
              nodes := updS id (fun n => { n with result := some result, status := .completed })
                (updS id (fun n => { n with status := .running }) es.nodes),
              fresh := fresh2,
              trace := (es.trace ++ [.running id]) ++ [.completed id],
              state := setS id result (setS "iterations" (.int (it + 1)) es.state) } := by
            rw [noIterNode] at hN ⊢
            rw [lookupS_updS_ne _ _ _ _ (Ne.symm hid), lookupS_updS_ne _ _ _ _ (Ne.symm hid)]
            exact hN
          have hG3 : iterGE (it + 1) { es with
              nodes := updS id (fun n => { n with result := some result, status := .completed })
                (updS id (fun n => { n with status := .running }) es.nodes),
              fresh := fresh2,
              trace := (es.trace ++ [.running id]) ++ [.completed id],
              state := setS id result (setS "iterations" (.int (it + 1)) es.state) } := by
            intro it2 h2
            rw [readIter, lookupS_setS_ne _ _ _ _ (Ne.symm hid), lookupS_setS_self] at h2
            cases h2
            omega
          have hQstep : ∀ id3 es3 es4, (noIterNode es3 ∧ iterGE (it + 1) es3) →
              execute_node L g maxIter f id3 es3 = .ok es4 →
              noIterNode es4 ∧ iterGE (it + 1) es4 := by
            intro id3 es3 es4 hQ3 h3
            exact execute_node_preserves_mono L g maxIter f (it + 1) id3 es3 es4 hQ3.1 hQ3.2 h3
          have hQoof : ∀ id3 es3, (noIterNode es3 ∧ iterGE (it + 1) es3) →
              execute_node L g maxIter f id3 es3 ≠ .outOfFuel := by
            intro id3 es3 hQ3
            refine ih id3 es3 hQ3.1 ?_ (by omega)
            intro it3 h3
            have := hQ3.2 it3 h3
            omega
          cases hGat : execGather (fun id2 es2 => execute_node L g maxIter f id2 es2)
              (List.filter (fun e => evaluate_condition e
                  (setS id result (setS "iterations" (.int (it + 1)) es.state)))
                (List.filter (fun e => e.parallel) (get_outgoing_edges g id)))
              { es with
                nodes := updS id (fun n => { n with result := some result, status := .completed })
                  (updS id (fun n => { n with status := .running }) es.nodes),
                fresh := fresh2,
                trace := (es.trace ++ [.running id]) ++ [.completed id],
                state := setS id result (setS "iterations" (.int (it + 1)) es.state) } with
          | ok es4 =>
            simp only [hGat] at h
            have hQ4 := execGather_preserve _ _ hQstep _ _ _ ⟨hN3, hG3⟩ hGat
            cases hSeq : execSequential (fun id2 es2 => execute_node L g maxIter f id2 es2)
                (sortEdges (List.filter (fun e => !e.parallel) (get_outgoing_edges g id)))
                es4 with
            | ok es5 => simp only [hSeq] at h; cases h
            | err m es5 => simp only [hSeq] at h; rw [nodeFail] at h; cases h
            | outOfFuel =>
              exact execSequential_no_oof _ _ hQstep hQoof _ _ hQ4 hSeq
          | err m es4 => simp only [hGat] at h; rw [nodeFail] at h; cases h
          | outOfFuel =>
            exact execGather_no_oof _ _ hQstep hQoof _ _ ⟨hN3, hG3⟩ hGat

theorem run_no_oof (L : LogicFn) (g : Graph) (input : Value) (maxIter : Int)
    (state? : Option TaggedDict) (freshStart : Nat)
    (hg : lookupS "iterations" g.nodes = Option.none) :
    run L g input maxIter state? freshStart ≠ .outOfFuel := by
  intro h
  unfold run at h
  by_cases hEmp : g.nodes.isEmpty = true
  · simp only [hEmp, if_true] at h; cases h
  simp only [hEmp, Bool.false_eq_true, if_false] at h
  cases hv : validateErr g with
  | some m => simp only [hv] at h; cases h
  | none =>
    simp only [hv] at h
    by_cases hEnt : (entry_points g).isEmpty = true
    · simp only [hEnt, if_true] at h; cases h
    simp only [hEnt, Bool.false_eq_true, if_false] at h
    refine execEntries_no_oof L g maxIter (maxIter.toNat + 1)
      (fun es => noIterNode es ∧ iterGE 0 es) ?_ ?_ _ _ ⟨?_, ?_⟩ h
    · intro id3 es3 es4 hQ3 h3
      exact execute_node_preserves_mono L g maxIter _ 0 id3 es3 es4 hQ3.1 hQ3.2 h3
    · intro id3 es3 hQ3
      refine execute_node_no_oof L g maxIter _ id3 es3 hQ3.1 ?_ (by omega)
      intro it3 h3
      have := hQ3.2 it3 h3
      omega
    · exact hg
    · intro it3 h3
      rw [readIter, lookupS_setS_self] at h3
      cases h3
      omega


/-- Claim C4, amended: execution always terminates — the model's recursion
fuel `max_iterations + 1` chosen by `run` is never exhausted (for graphs
obeying the naming discipline that no node is named `"iterations"`, which
is what keeps the counter monotone).  However, the claim's concrete
scenario is wrong about the code: a true two-node cycle `A→B→A` with
`max_iterations = 5` does *not* raise — it completes normally with
`state["iterations"] == 3`, because the second visit to `A` is skipped as
COMPLETED; the maximum-iterations error is raised only when the visit
budget is actually exhausted, e.g. the same cycle with
`max_iterations = 2`. -/
theorem claim_C4_termination :
    (∀ (L : LogicFn) (g : Graph) (input : Value) (maxIter : Int)
        (state? : Option TaggedDict) (freshStart : Nat),
      lookupS "iterations" g.nodes = Option.none →
      run L g input maxIter state? freshStart ≠ .outOfFuel) ∧
    (run_base cycleAB (.int 7) 5 Option.none 0).isOkB = true ∧
    (run_base cycleAB (.int 7) 5 Option.none 0).iterValOf = some (.int 3) ∧
    (run_base cycleAB (.int 7) 2 Option.none 0).errMsgOf =
      some (nodeFailMsg "A" (nodeFailMsg "B" (maxIterMsg 2))) :=
  ⟨fun L g input maxIter state? freshStart hg =>
      run_no_oof L g input maxIter state? freshStart hg,
   rfl, rfl, rfl⟩

/-- Counterexample to claim C4 as stated: the two-node cycle `A→B→A` with
`max_iterations = 5` completes successfully (no error at all), because the
COMPLETED-skip makes the third visit a no-op; it does not raise the
maximum-iterations error. -/
theorem claim_C4_counterexample :
    (run_base cycleAB (.int 7) 5 Option.none 0).isOkB = true ∧
    (run_base cycleAB (.int 7) 5 Option.none 0).errMsgOf = Option.none :=
  ⟨rfl, rfl⟩

/-- Witness for C4 at a concrete input. -/
theorem claim_C4_witness :
    run execute_node_logic_base gSolo (.int 7) 100 Option.none 0 ≠ .outOfFuel ∧
    lookupS "iterations" gSolo.nodes = Option.none :=
  ⟨claim_C4_termination.1 execute_node_logic_base gSolo (.int 7) 100 Option.none 0 rfl,
   rfl⟩

/-! ## Claim C5: linear chains visit every node exactly once -/

theorem chain_nodes_lookup (nds : List (String × NodeType)) (id : String)
    (h : id ∈ nds.map Prod.fst) :
    ∃ nd, lookupS id (nds.map (fun p => (p.1, freshNode p.2))) = some nd ∧
      nd.status = .pending := by
  induction nds with
  | nil => simp at h
  | cons p rest ih =>
    obtain ⟨k, ty⟩ := p
    by_cases hk : k = id
    · exact ⟨freshNode ty, by simp [lookupS, hk], rfl⟩
    · simp only [List.map_cons, List.mem_cons] at h
      rcases h with h | h
    -- h : id = k contradicts hk
      · exact absurd h.symm hk
      · obtain ⟨nd, hnd, hst⟩ := ih h
        exact ⟨nd, by simp [lookupS, hk, hnd], hst⟩

theorem chain_nodes_isSome (nds : List (String × NodeType)) (id : String)
    (h : id ∈ nds.map Prod.fst) :
    (lookupS id (nds.map (fun p => (p.1, freshNode p.2)))).isSome = true := by
  obtain ⟨nd, hnd, _⟩ := chain_nodes_lookup nds id h
  simp [hnd]

theorem chainEdgesOf_mem (ids : List String) (e : EdgeRec)
    (h : e ∈ chainEdgesOf ids) : e.source ∈ ids ∧ e.target ∈ ids := by
  induction ids with
  | nil => simp [chainEdgesOf] at h
  | cons a tl ih =>
    cases tl with
    | nil => simp [chainEdgesOf] at h
    | cons b rest =>
      rw [chainEdgesOf] at h
      rcases List.mem_cons.mp h with h | h
      · subst h
        exact ⟨List.mem_cons_self _ _, List.mem_cons_of_mem _ (List.mem_cons_self _ _)⟩
      · have := ih h
        exact ⟨List.mem_cons_of_mem _ this.1, List.mem_cons_of_mem _ this.2⟩

theorem chain_validate (nds : List (String × NodeType)) (hne : nds ≠ []) :
    validateErr (chainGraph nds) = Option.none := by
  rw [validateErr]
  have hnodes : (chainGraph nds).nodes.isEmpty = false := by
    cases nds with
    | nil => exact absurd rfl hne
    | cons p rest => simp [chainGraph]
  rw [hnodes]
  simp only [Bool.false_eq_true, if_false]
  have hfind : (chainGraph nds).edges.find? (fun e =>
      (lookupS e.source (chainGraph nds).nodes).isNone ||
      (lookupS e.target (chainGraph nds).nodes).isNone) = Option.none := by
    rw [List.find?_eq_none]
    intro e he
    have hm := chainEdgesOf_mem (nds.map Prod.fst) e he
    have h1 := chain_nodes_isSome nds e.source hm.1
    have h2 := chain_nodes_isSome nds e.target hm.2
    simp only [chainGraph]
    simp only [chainGraph] at h1 h2
    rw [Option.isSome_iff_exists] at h1 h2
    obtain ⟨x1, hx1⟩ := h1
    obtain ⟨x2, hx2⟩ := h2
    simp [hx1, hx2]
  rw [hfind]

theorem chainAdjOf_lookup (pre : List String) :
    ∀ (c : String) (cs : List String), (pre ++ c :: cs).Nodup →
    lookupS c (chainAdjOf (pre ++ c :: cs)) =
      (match cs with
       | [] => Option.none
       | d :: _ => some [plainEdge c d]) := by
  induction pre with
  | nil =>
    intro c cs hnd
    cases cs with
    | nil => rfl
    | cons d rest => simp [chainAdjOf, lookupS]
  | cons p pre2 ih =>
    intro c cs hnd
    have hpc : p ≠ c := by
      have : p ∉ pre2 ++ c :: cs := (List.nodup_cons.mp hnd).1
      intro hq
      exact this (by rw [hq]; exact List.mem_append_right _ (List.mem_cons_self _ _))
    cases hpt : pre2 ++ c :: cs with
    | nil => exact absurd hpt (by simp)
    | cons t0 t1 =>
      have hstep : chainAdjOf ((p :: pre2) ++ c :: cs) =
          (p, [plainEdge p t0]) :: chainAdjOf (t0 :: t1) := by
        simp only [List.cons_append, hpt, chainAdjOf]
      rw [hstep, lookupS, if_neg hpc, ← hpt]
      exact ih c cs (List.nodup_cons.mp hnd).2

theorem chainRadjOf_head (tl : List String) :
    ∀ c : String, c ∉ tl.tail → lookupS c (chainRadjOf tl) = Option.none := by
  induction tl with
  | nil => intro c _; rfl
  | cons a tl2 ih =>
    intro c hc
    cases tl2 with
    | nil => rfl
    | cons b rest =>
      simp only [List.tail_cons, List.mem_cons] at hc
      push_neg at hc
      rw [chainRadjOf, lookupS, if_neg (Ne.symm hc.1)]
      exact ih c (by simpa using hc.2)

theorem chainRadjOf_tail (pre : List String) :
    ∀ (p c : String) (cs : List String), (pre ++ p :: c :: cs).Nodup →
    lookupS c (chainRadjOf (pre ++ p :: c :: cs)) = some [p] := by
  induction pre with
  | nil =>
    intro p c cs hnd
    simp [chainRadjOf, lookupS]
  | cons q pre2 ih =>
    intro p c cs hnd
    cases hpt : pre2 ++ p :: c :: cs with
    | nil => exact absurd hpt (by simp)
    | cons t0 t1 =>
      have hct : c ∈ t1 := by
        cases pre2 with
        | nil =>
          have h1 : p :: c :: cs = t0 :: t1 := by simpa using hpt
          injection h1 with h0 htl
          rw [← htl]
          exact List.mem_cons_self _ _
        | cons r pre3 =>
          have h1 : r :: (pre3 ++ p :: c :: cs) = t0 :: t1 := by simpa using hpt
          injection h1 with h0 htl
          rw [← htl]
          exact List.mem_append_right _ (List.mem_cons_of_mem _ (List.mem_cons_self _ _))
      have hstep : chainRadjOf ((q :: pre2) ++ p :: c :: cs) =
          (t0, [q]) :: chainRadjOf (t0 :: t1) := by
        simp only [List.cons_append, hpt, chainRadjOf]
      have hqc : t0 ≠ c := by
        have hnd2 : (pre2 ++ p :: c :: cs).Nodup := (List.nodup_cons.mp hnd).2
        rw [hpt] at hnd2
        intro hq
        exact (List.nodup_cons.mp hnd2).1 (hq ▸ hct)
      rw [hstep, lookupS, if_neg hqc, ← hpt]
      exact ih p c cs (List.nodup_cons.mp hnd).2

theorem sortEdges_single (e : EdgeRec) : sortEdges [e] = [e] := rfl

theorem chain_incoming_of_mem (nds : List (String × NodeType)) (x : String)
    (p0 : String × NodeType) (rest : List (String × NodeType))
    (hh : nds = p0 :: rest)
    (hnd : (nds.map Prod.fst).Nodup)
    (hx : x ∈ rest.map Prod.fst) :
    ∃ p, get_incoming_nodes (chainGraph nds) x = [p] := by
  obtain ⟨pre2, suf, hsplit⟩ := List.append_of_mem hx
  have hids : nds.map Prod.fst = (p0.1 :: pre2) ++ x :: suf := by
    rw [hh]
    simp [hsplit]
  rcases List.eq_nil_or_concat (p0.1 :: pre2) with hc | ⟨pre3, p, hc⟩
  · cases hc
  · rw [List.concat_eq_append] at hc
    refine ⟨p, ?_⟩
    rw [get_incoming_nodes]
    have : lookupS x (chainRadjOf (nds.map Prod.fst)) = some [p] := by
      rw [hids, hc, List.append_assoc]
      have hnd2 : (pre3 ++ ([p] ++ x :: suf)).Nodup := by
        rw [← List.append_assoc, ← hc, ← hids]
        exact hnd
      exact chainRadjOf_tail pre3 p x suf (by simpa using hnd2)
    simp [chainGraph, this]

theorem chain_entry_points (nds : List (String × NodeType))
    (p0 : String × NodeType) (rest : List (String × NodeType))
    (hh : nds = p0 :: rest)
    (hnd : (nds.map Prod.fst).Nodup) :
    entry_points (chainGraph nds) = [p0.1] := by
  have hhead : (get_incoming_nodes (chainGraph nds) p0.1).isEmpty = true := by
    rw [get_incoming_nodes]
    have : lookupS p0.1 (chainRadjOf (nds.map Prod.fst)) = Option.none := by
      apply chainRadjOf_head
      rw [hh]
      simp only [List.map_cons, List.tail_cons]
      rw [hh] at hnd
      exact (List.nodup_cons.mp (by simpa using hnd)).1
    simp [chainGraph, this]
  have htail : (rest.map (fun p => (p.1, freshNode p.2))).filter
      (fun p => (get_incoming_nodes (chainGraph nds) p.1).isEmpty) = [] := by
    rw [List.filter_eq_nil_iff]
    intro a ha
    have hx : a.1 ∈ rest.map Prod.fst := by
      rcases List.mem_map.mp ha with ⟨q, hq, hqa⟩
      exact List.mem_map.mpr ⟨q, hq, by rw [← hqa]⟩
    obtain ⟨p, hp⟩ := chain_incoming_of_mem nds a.1 p0 rest hh hnd hx
    simp [hp]
  rw [entry_points]
  have hnodes : (chainGraph nds).nodes =
      (p0.1, freshNode p0.2) :: rest.map (fun p => (p.1, freshNode p.2)) := by
    simp [chainGraph, hh]
  simp [hnodes, List.filter_cons, hhead, htail]

theorem chain_exec (nds : List (String × NodeType)) (maxIter : Int)
    (hnd : (nds.map Prod.fst).Nodup)
    (hitn : "iterations" ∉ nds.map Prod.fst) :
    ∀ (cs : List String) (c : String) (pre : List String) (fuel : Nat)
      (es : ExecState) (it : Int),
    nds.map Prod.fst = pre ++ c :: cs →
    lookupS "iterations" es.state = some (.int it) →
    it + 1 + cs.length ≤ maxIter →
    cs.length < fuel →
    (∀ x ∈ c :: cs, ∃ nd, lookupS x es.nodes = some nd ∧ nd.status ≠ .completed) →
    ∃ es2, execute_node execute_node_logic_base (chainGraph nds) maxIter fuel c es = .ok es2 ∧
      lookupS "iterations" es2.state = some (.int (it + 1 + cs.length)) ∧
      es2.trace = es.trace ++ chainTrace (c :: cs) := by
  intro cs
  induction cs with
  | nil =>
    intro c pre fuel es it hsplit hit2 hbound hfuel hnodes
    have hcin : c ∈ nds.map Prod.fst := by rw [hsplit]; simp
    have hciter : c ≠ "iterations" := fun hq => hitn (hq ▸ hcin)
    obtain ⟨nd, hnd2, hnco⟩ := hnodes c (List.mem_cons_self _ _)
    cases fuel with
    | zero => omega
    | succ f =>
      simp only [execute_node, readIter, hit2]
      rw [if_neg (by simp at hbound; omega : ¬ maxIter ≤ it)]
      simp only [hnd2]
      rw [if_neg hnco]
      simp only [execute_node_logic_base]
      have hadj : get_outgoing_edges (chainGraph nds) c = [] := by
        show (lookupS c (chainAdjOf (nds.map Prod.fst))).getD [] = []
        rw [hsplit, chainAdjOf_lookup pre c [] (hsplit ▸ hnd)]
        rfl
      rw [hadj]
      simp only [List.filter_nil, execGather, sortEdges, List.foldr_nil, execSequential]
      refine ⟨_, rfl, ?_, ?_⟩
      · rw [lookupS_setS_ne _ _ _ _ (Ne.symm hciter), lookupS_setS_self]
        simp
      · simp [chainTrace]
  | cons d cs2 ih =>
    intro c pre fuel es it hsplit hit2 hbound hfuel hnodes
    have hcin : c ∈ nds.map Prod.fst := by rw [hsplit]; simp
    have hciter : c ≠ "iterations" := fun hq => hitn (hq ▸ hcin)
    obtain ⟨nd, hnd2, hnco⟩ := hnodes c (List.mem_cons_self _ _)
    have hsufnd : (c :: d :: cs2).Nodup := (hsplit ▸ hnd).of_append_right
    have hcnot : c ∉ d :: cs2 := (List.nodup_cons.mp hsufnd).1
    cases fuel with
    | zero => omega
    | succ f =>
      simp only [execute_node, readIter, hit2]
      rw [if_neg (by simp at hbound; omega : ¬ maxIter ≤ it)]
      simp only [hnd2]
      rw [if_neg hnco]
      simp only [execute_node_logic_base]
      have hadj : get_outgoing_edges (chainGraph nds) c = [plainEdge c d] := by
        show (lookupS c (chainAdjOf (nds.map Prod.fst))).getD [] = [plainEdge c d]
        rw [hsplit, chainAdjOf_lookup pre c (d :: cs2) (hsplit ▸ hnd)]
        rfl
      rw [hadj]
      have hpar : List.filter (fun e => e.parallel) [plainEdge c d] = [] := by
        simp [plainEdge]
      have hseq : List.filter (fun e => !e.parallel) [plainEdge c d] = [plainEdge c d] := by
        simp [plainEdge]
      rw [hpar, hseq]
      simp only [List.filter_nil, execGather, sortEdges_single, execSequential]
      rw [if_pos (by simp [evaluate_condition, plainEdge] : evaluate_condition (plainEdge c d) _ = true)]
      rw [show (plainEdge c d).target = d from rfl]
      set esR : ExecState := { es with
        nodes := updS c (fun n => { n with status := NodeStatus.running }) es.nodes,
        state := setS "iterations" (Value.int (it + 1)) es.state,
        trace := es.trace ++ [Event.running c] } with hesR
      set rb : Value × Nat := base_result c nd esR with hrb
      set es3 : ExecState := { esR with
        nodes := updS c (fun n => { n with result := some rb.1, status := NodeStatus.completed })
          esR.nodes,
        state := setS c rb.1 esR.state,
        fresh := rb.2,
        trace := esR.trace ++ [Event.completed c] } with hes3
      have hsplit2 : nds.map Prod.fst = (pre ++ [c]) ++ d :: cs2 := by
        rw [hsplit, List.append_assoc]
        rfl
      have hit3 : lookupS "iterations" es3.state = some (.int (it + 1)) := by
        rw [hes3]
        simp only [hesR]
        rw [lookupS_setS_ne _ _ _ _ (Ne.symm hciter), lookupS_setS_self]
      have hlen : (d :: cs2).length = cs2.length + 1 := rfl
      have hbound2 : (it + 1) + 1 + (cs2.length : Int) ≤ maxIter := by
        rw [hlen] at hbound
        omega
      have hfuel2 : cs2.length < f := by
        rw [hlen] at hfuel
        omega
      have hnodes2 : ∀ x ∈ d :: cs2, ∃ nd2, lookupS x es3.nodes = some nd2 ∧
          nd2.status ≠ .completed := by
        intro x hx
        have hxc : x ≠ c := fun hq => hcnot (hq ▸ hx)
        obtain ⟨nd2, hnd3, hst3⟩ := hnodes x (List.mem_cons_of_mem _ hx)
        refine ⟨nd2, ?_, hst3⟩
        rw [hes3]
        simp only [hesR]
        rw [lookupS_updS_ne _ _ _ _ hxc, lookupS_updS_ne _ _ _ _ hxc]
        exact hnd3
      obtain ⟨es4, hx4, hit4, htr4⟩ := ih d (pre ++ [c]) f es3 (it + 1)
        hsplit2 hit3 hbound2 hfuel2 hnodes2
      rw [hx4]
      refine ⟨es4, rfl, ?_, ?_⟩
      · rw [hit4]
        congr 2
        omega
      · rw [htr4, hes3]
        simp only [hesR]
        simp [chainTrace, List.append_assoc]



theorem chainTrace_count_not_mem (ids : List String) (id : String) (h : id ∉ ids) :
    (chainTrace ids).count (Event.running id) = 0 ∧
    (chainTrace ids).count (Event.completed id) = 0 := by
  induction ids with
  | nil => simp [chainTrace]
  | cons x rest ih =>
    have hx : x ≠ id := fun hq => h (hq ▸ List.mem_cons_self _ _)
    have hrest : id ∉ rest := fun hq => h (List.mem_cons_of_mem _ hq)
    have := ih hrest
    simp [chainTrace, List.count_cons, this.1, this.2, hx]

theorem chainTrace_count_mem (ids : List String) (id : String)
    (hnd : ids.Nodup) (h : id ∈ ids) :
    (chainTrace ids).count (Event.running id) = 1 ∧
    (chainTrace ids).count (Event.completed id) = 1 := by
  induction ids with
  | nil => simp at h
  | cons x rest ih =>
    rcases List.mem_cons.mp h with hq | hq
    · subst hq
      have hnin : id ∉ rest := (List.nodup_cons.mp hnd).1
      have := chainTrace_count_not_mem rest id hnin
      simp [chainTrace, List.count_cons, this.1, this.2]
    · have hx : x ≠ id := by
        intro he
        exact (List.nodup_cons.mp hnd).1 (he ▸ hq)
      have := ih (List.nodup_cons.mp hnd).2 hq
      simp [chainTrace, List.count_cons, this.1, this.2, hx]


theorem claim_C5_linear_chain (nds : List (String × NodeType)) (input : Value)
    (maxIter : Int) (freshStart : Nat)
    (hne : nds ≠ [])
    (hnd : (nds.map Prod.fst).Nodup)
    (hitn : "iterations" ∉ nds.map Prod.fst)
    (hbound : (nds.length : Int) ≤ maxIter) :
    ∃ es, run_base (chainGraph nds) input maxIter Option.none freshStart = .ok es ∧
      lookupS "iterations" es.state = some (.int nds.length) ∧
      es.trace = chainTrace (nds.map Prod.fst) ∧
      ∀ id ∈ nds.map Prod.fst,
        es.trace.count (Event.running id) = 1 ∧
        es.trace.count (Event.completed id) = 1 := by
  obtain ⟨p0, rest, hh⟩ : ∃ p0 rest, nds = p0 :: rest := by
    cases nds with
    | nil => exact absurd rfl hne
    | cons a b => exact ⟨a, b, rfl⟩
  have hne2 : (chainGraph nds).nodes.isEmpty = false := by
    rw [hh]; simp [chainGraph]
  rw [run_base]
  unfold run
  rw [hne2, chain_validate nds hne, chain_entry_points nds p0 rest hh hnd]
  simp only [List.isEmpty_cons, Bool.false_eq_true, if_false]
  rw [execEntries]
  have hsplit : nds.map Prod.fst = [] ++ p0.1 :: rest.map Prod.fst := by
    rw [hh]; rfl
  have hlen : nds.length = rest.length + 1 := by rw [hh]; rfl
  obtain ⟨es2, hx, hit4, htr⟩ := chain_exec nds maxIter hnd hitn
    (rest.map Prod.fst) p0.1 [] (maxIter.toNat + 1)
    { nodes := (chainGraph nds).nodes,
      state := setS "iterations" (Value.int 0) (setS "input" input []),
      stateTag := freshStart, fresh := freshStart + 1, trace := [] }
    0 hsplit (lookupS_setS_self _ _ _)
    (by simp only [List.length_map]; push_cast; omega)
    (by simp only [List.length_map]; omega)
    (by
      intro x hx2
      have hx3 : x ∈ nds.map Prod.fst := by rw [hsplit]; simpa using hx2
      obtain ⟨nd, hnd2, hst⟩ := chain_nodes_lookup nds x hx3
      exact ⟨nd, hnd2, by rw [hst]; decide⟩)
  rw [hx]
  refine ⟨es2, rfl, ?_, ?_, ?_⟩
  · rw [hit4]
    congr 2
    simp only [List.length_map]
    push_cast
    omega
  · rw [htr, hsplit]
    rfl
  · intro id hid
    have htr2 : es2.trace = chainTrace (nds.map Prod.fst) := by rw [htr, hsplit]; rfl
    rw [htr2]
    exact chainTrace_count_mem (nds.map Prod.fst) id hnd hid


/-- Witness for C5 at the concrete three-node chain. -/
theorem claim_C5_witness :
    ∃ es, run_base (chainGraph chain3nds) (.int 7) 100 Option.none 0 = .ok es ∧
      lookupS "iterations" es.state = some (.int chain3nds.length) ∧
      es.trace = chainTrace (chain3nds.map Prod.fst) ∧
      es.trace.count (Event.running "n1") = 1 :=
  match claim_C5_linear_chain chain3nds (.int 7) 100 0 (by decide) (by decide)
      (by decide) (by decide) with
  | ⟨es, h1, h2, h3, h4⟩ => ⟨es, h1, h2, h3, (h4 "n1" (by decide)).1⟩

/-! ## Claim C10: state identity and frame -/

theorem frameRel_refl (es : ExecState) : frameRel es es :=
  ⟨rfl, [], by simp, fun k _ _ => rfl⟩

theorem frameRel_trans (a b c : ExecState) (h1 : frameRel a b) (h2 : frameRel b c) :
    frameRel a c := by
  obtain ⟨ht1, Δ1, htr1, hf1⟩ := h1
  obtain ⟨ht2, Δ2, htr2, hf2⟩ := h2
  refine ⟨ht2.trans ht1, Δ1 ++ Δ2, ?_, ?_⟩
  · rw [htr2, htr1, List.append_assoc]
  · intro k hk hnk
    rw [List.mem_append] at hnk
    push_neg at hnk
    rw [hf2 k hk hnk.2, hf1 k hk hnk.1]

theorem execGather_rel (step : String → ExecState → ExecResult)
    (R : ExecState → ExecState → Prop)
    (hrefl : ∀ es, R es es)
    (htrans : ∀ a b c, R a b → R b c → R a c)
    (hstep : ∀ id es es2, step id es = .ok es2 → R es es2) :
    ∀ l es es2, execGather step l es = .ok es2 → R es es2 := by
  intro l
  induction l with
  | nil => intro es es2 h; rw [execGather] at h; cases h; exact hrefl _
  | cons e rest ih =>
    intro es es2 h
    rw [execGather] at h
    cases hs : step e.target es with
    | ok es3 =>
      simp only [hs] at h
      exact htrans _ _ _ (hstep e.target es es3 hs) (ih es3 es2 h)
    | err m es3 => simp only [hs] at h; cases h
    | outOfFuel => simp only [hs] at h; cases h

theorem execSequential_rel (step : String → ExecState → ExecResult)
    (R : ExecState → ExecState → Prop)
    (hrefl : ∀ es, R es es)
    (htrans : ∀ a b c, R a b → R b c → R a c)
    (hstep : ∀ id es es2, step id es = .ok es2 → R es es2) :
    ∀ l es es2, execSequential step l es = .ok es2 → R es es2 := by
  intro l
  induction l with
  | nil => intro es es2 h; rw [execSequential] at h; cases h; exact hrefl _
  | cons e rest ih =>
    intro es es2 h
    rw [execSequential] at h
    by_cases hc : evaluate_condition e es.state = true
    · rw [if_pos hc] at h
      cases hs : step e.target es with
      | ok es3 =>
        simp only [hs] at h
        exact htrans _ _ _ (hstep e.target es es3 hs) (ih es3 es2 h)
      | err m es3 => simp only [hs] at h; cases h
      | outOfFuel => simp only [hs] at h; cases h
    · rw [if_neg hc] at h
      exact ih es es2 h

theorem execEntries_rel (L : LogicFn) (g : Graph) (maxIter : Int) (fuel : Nat)
    (R : ExecState → ExecState → Prop)
    (hrefl : ∀ es, R es es)
    (htrans : ∀ a b c, R a b → R b c → R a c)
    (hstep : ∀ id es es2, execute_node L g maxIter fuel id es = .ok es2 → R es es2) :
    ∀ l es es2, execEntries L g maxIter fuel l es = .ok es2 → R es es2 := by
  intro l
  induction l with
  | nil => intro es es2 h; rw [execEntries] at h; cases h; exact hrefl _
  | cons e rest ih =>
    intro es es2 h
    rw [execEntries] at h
    cases hs : execute_node L g maxIter fuel e es with
    | ok es3 =>
      simp only [hs] at h
      exact htrans _ _ _ (hstep e es es3 hs) (ih es3 es2 h)
    | err m es3 => simp only [hs] at h; cases h
    | outOfFuel => simp only [hs] at h; cases h

theorem execute_node_frame (L : LogicFn) (g : Graph) (maxIter : Int) :
    ∀ (fuel : Nat) (id : String) (es es2 : ExecState),
    execute_node L g maxIter fuel id es = .ok es2 → frameRel es es2 := by
  intro fuel
  induction fuel with
  | zero => intro id es es2 h; rw [execute_node] at h; cases h
  | succ f ih =>
    intro id es es2 h
    rw [execute_node] at h
    cases hri : readIter es.state with
    | none => simp only [hri] at h; cases h
    | some it =>
      simp only [hri] at h
      by_cases hle : maxIter ≤ it
      · rw [if_pos hle] at h; cases h
      rw [if_neg hle] at h
      cases hnd : lookupS id es.nodes with
      | none => simp only [hnd] at h; cases h
      | some nd =>
        simp only [hnd] at h
        by_cases hco : nd.status = NodeStatus.completed
        · rw [if_pos hco] at h
          cases h
          refine ⟨rfl, [], by simp, ?_⟩
          intro k hk _
          exact lookupS_setS_ne k "iterations" _ es.state hk
        rw [if_neg hco] at h
        cases hL : L id nd { es with
            nodes := updS id (fun n => { n with status := .running }) es.nodes,
            state := setS "iterations" (.int (it + 1)) es.state,
            trace := es.trace ++ [.running id] } with
        | error msg => simp only [hL] at h; rw [nodeFail] at h; cases h
        | ok p =>
          obtain ⟨result, fresh2⟩ := p
          simp only [hL] at h
          -- the frame relation from es to the post-completion state
          have hfr3 : frameRel es { es with
              nodes := updS id (fun n => { n with result := some result, status := .completed })
                (updS id (fun n => { n with status := .running }) es.nodes),
              fresh := fresh2,
              trace := (es.trace ++ [.running id]) ++ [.completed id],
              state := setS id result (setS "iterations" (.int (it + 1)) es.state) } := by
            refine ⟨rfl, [.running id, .completed id], by simp, ?_⟩
            intro k hk hnk
            simp only [List.mem_cons, List.not_mem_nil] at hnk
            push_neg at hnk
            have hkid : k ≠ id := by
              intro hq
              exact hnk.1 (by rw [hq])
            rw [lookupS_setS_ne k id _ _ hkid, lookupS_setS_ne k "iterations" _ _ hk]
          have hstep2 : ∀ id3 es3 es4,
              execute_node L g maxIter f id3 es3 = .ok es4 → frameRel es3 es4 :=
            fun id3 es3 es4 h3 => ih id3 es3 es4 h3
          cases hGat : execGather (fun id2 es2 => execute_node L g maxIter f id2 es2)
              (List.filter (fun e => evaluate_condition e
                  (setS id result (setS "iterations" (.int (it + 1)) es.state)))
                (List.filter (fun e => e.parallel) (get_outgoing_edges g id)))
              { es with
                nodes := updS id (fun n => { n with result := some result, status := .completed })
                  (updS id (fun n => { n with status := .running }) es.nodes),
                fresh := fresh2,
                trace := (es.trace ++ [.running id]) ++ [.completed id],
                state := setS id result (setS "iterations" (.int (it + 1)) es.state) } with
          | ok es4 =>
            simp only [hGat] at h
            have hfr4 := execGather_rel _ frameRel frameRel_refl frameRel_trans hstep2 _ _ _ hGat
            cases hSeq : execSequential (fun id2 es2 => execute_node L g maxIter f id2 es2)
                (sortEdges (List.filter (fun e => !e.parallel) (get_outgoing_edges g id)))
                es4 with
            | ok es5 =>
              simp only [hSeq] at h
              cases h
              have hfr5 := execSequential_rel _ frameRel frameRel_refl frameRel_trans hstep2 _ _ _ hSeq
              exact frameRel_trans _ _ _ (frameRel_trans _ _ _ hfr3 hfr4) hfr5
            | err m es5 => simp only [hSeq] at h; rw [nodeFail] at h; cases h
            | outOfFuel => simp only [hSeq] at h; cases h
          | err m es4 => simp only [hGat] at h; rw [nodeFail] at h; cases h
          | outOfFuel => simp only [hGat] at h; cases h

/-- Claim C10: for the base `Graph` engine, `run` returns the very state
mapping object it was given (the identity tag of the supplied dict is the
tag of the returned state), and every key of the supplied initial state
other than `input`, `iterations` and the ids of executed nodes (those with
a RUNNING event) keeps its original value. -/
theorem claim_C10_state_identity_frame (g : Graph) (input : Value) (maxIter : Int)
    (sd : TaggedDict) (freshStart : Nat) (es : ExecState)
    (hok : run execute_node_logic_base g input maxIter (some sd) freshStart = .ok es) :
    es.stateTag = sd.tag ∧
    ∀ k, k ≠ "input" → k ≠ "iterations" → Event.running k ∉ es.trace →
      lookupS k es.state = lookupS k sd.entries := by
  unfold run at hok
  by_cases hEmp : g.nodes.isEmpty = true
  · simp only [hEmp, if_true] at hok; cases hok
  simp only [hEmp, Bool.false_eq_true, if_false] at hok
  cases hv : validateErr g with
  | some m => simp only [hv] at hok; cases hok
  | none =>
    simp only [hv] at hok
    by_cases hEnt : (entry_points g).isEmpty = true
    · simp only [hEnt, if_true] at hok; cases hok
    simp only [hEnt, Bool.false_eq_true, if_false] at hok
    have hfr := execEntries_rel execute_node_logic_base g maxIter (maxIter.toNat + 1)
      frameRel frameRel_refl frameRel_trans
      (fun id3 es3 es4 h3 => execute_node_frame execute_node_logic_base g maxIter _ id3 es3 es4 h3)
      _ _ _ hok
    obtain ⟨htag, Δ, htr, hframe⟩ := hfr
    constructor
    · exact htag
    · intro k hki hkit hkr
      have hΔ : Event.running k ∉ Δ := by
        intro hq
        exact hkr (by rw [htr]; simpa using hq)
      rw [hframe k hkit hΔ]
      rw [lookupS_setS_ne k "iterations" _ _ hkit, lookupS_setS_ne k "input" _ _ hki]

/-- Witness for C10 at a concrete input: a caller-supplied state dict
tagged 5 with a spare key keeps both its identity and the key's value. -/
theorem claim_C10_witness :
    ∃ es, run execute_node_logic_base gSolo (.int 7) 10 (some ⟨5, [("foo", .int 42)]⟩) 5 = .ok es ∧
      es.stateTag = 5 ∧ lookupS "foo" es.state = some (.int 42) := by
  refine ⟨_, rfl, ?_, ?_⟩
  · exact (claim_C10_state_identity_frame gSolo (.int 7) 10 ⟨5, [("foo", .int 42)]⟩ 5 _ rfl).1
  · have := (claim_C10_state_identity_frame gSolo (.int 7) 10 ⟨5, [("foo", .int 42)]⟩ 5 _ rfl).2
      "foo" (by decide) (by decide) (by decide)
    rw [this]
    rfl


/-! ## Claim C2, amended part: the enhanced engine deep-copies the state
before recording an OUTPUT result -/

theorem deepcopyV_mono : ∀ (fresh : Nat) (v : Value), fresh ≤ (deepcopyV fresh v).2 := by
  intro fresh v
  refine deepcopyV.induct (fun fresh v => fresh ≤ (deepcopyV fresh v).2)
    (fun fresh entries => fresh ≤ (deepcopyE fresh entries).2) ?_ ?_ ?_ ?_ fresh v
  · intro fresh t entries en f2 hE ih
    exact le_trans (Nat.le_succ _) ih
  · intro t fresh hnd
    cases t with
    | dict t2 entries => exact absurd rfl (hnd t2 entries)
    | none => exact Nat.le_refl _
    | int n => exact Nat.le_refl _
    | str s => exact Nat.le_refl _
    | bool b => exact Nat.le_refl _
  · intro fresh
    exact Nat.le_refl _
  · intro fresh k v rest v2 f2 hV en f21 hE ih1 ih2
    rw [hV] at ih1
    have hr : (deepcopyE fresh ((k, v) :: rest)).2 = (deepcopyE (deepcopyV fresh v).2 rest).2 := rfl
    rw [hr, hV]
    exact le_trans ih1 ih2

theorem deepcopyE_mono : ∀ (fresh : Nat) (entries : List (String × Value)),
    fresh ≤ (deepcopyE fresh entries).2 := by
  intro fresh entries
  refine deepcopyE.induct (fun fresh v => fresh ≤ (deepcopyV fresh v).2)
    (fun fresh entries => fresh ≤ (deepcopyE fresh entries).2) ?_ ?_ ?_ ?_ fresh entries
  · intro fresh t entries en f2 hE ih
    exact le_trans (Nat.le_succ _) ih
  · intro t fresh hnd
    cases t with
    | dict t2 entries => exact absurd rfl (hnd t2 entries)
    | none => exact Nat.le_refl _
    | int n => exact Nat.le_refl _
    | str s => exact Nat.le_refl _
    | bool b => exact Nat.le_refl _
  · intro fresh
    exact Nat.le_refl _
  · intro fresh k v rest v2 f2 hV en f21 hE ih1 ih2
    rw [hV] at ih1
    have hr : (deepcopyE fresh ((k, v) :: rest)).2 = (deepcopyE (deepcopyV fresh v).2 rest).2 := rfl
    rw [hr, hV]
    exact le_trans ih1 ih2

theorem deepcopyE_lookup_none (k : String) :
    ∀ (entries : List (String × Value)) (fresh : Nat),
    lookupS k entries = Option.none →
    lookupS k (deepcopyE fresh entries).1 = Option.none := by
  intro entries
  induction entries with
  | nil => intro fresh _; rfl
  | cons p rest ih =>
    intro fresh h
    obtain ⟨k2, v⟩ := p
    rw [lookupS] at h
    by_cases hk : k2 = k
    · rw [if_pos hk] at h; cases h
    · rw [if_neg hk] at h
      have hr : (deepcopyE fresh ((k2, v) :: rest)).1 =
          (k2, (deepcopyV fresh v).1) :: (deepcopyE (deepcopyV fresh v).2 rest).1 := rfl
      rw [hr, lookupS, if_neg hk]
      exact ih _ h

theorem enhanced_logic_spec (oracle : String → List (String × Value) → Except String Value)
    (id : String) (nd : NodeRec) (esR : ExecState) (result : Value) (fresh2 : Nat)
    (hL : execute_node_logic_enhanced oracle id nd esR = .ok (result, fresh2)) :
    esR.fresh ≤ fresh2 ∧
    (nd.type = .output →
      result = .dict esR.fresh (deepcopyE (esR.fresh + 1) esR.state).1) := by
  cases hty : nd.type with
  | input =>
    simp only [execute_node_logic_enhanced, hty] at hL
    injection hL with hp
    rw [Prod.mk.injEq] at hp
    refine ⟨?_, fun hq => absurd hq (by decide)⟩
    rw [← hp.2]
    exact deepcopyV_mono _ _
  | output =>
    simp only [execute_node_logic_enhanced, hty] at hL
    injection hL with hp
    have hdc : deepcopyV esR.fresh (.dict esR.stateTag esR.state) =
        (.dict esR.fresh (deepcopyE (esR.fresh + 1) esR.state).1,
         (deepcopyE (esR.fresh + 1) esR.state).2) := rfl
    rw [hdc, Prod.mk.injEq] at hp
    refine ⟨?_, fun _ => hp.1.symm⟩
    rw [← hp.2]
    have := deepcopyE_mono (esR.fresh + 1) esR.state
    omega
  | agent =>
    simp only [execute_node_logic_enhanced, hty] at hL
    cases hag : nd.agent_id with
    | none => simp only [hag] at hL; cases hL
    | some aid =>
      simp only [hag] at hL
      cases hor : oracle aid esR.state with
      | error m => simp only [hor] at hL; cases hL
      | ok v =>
        simp only [hor] at hL
        injection hL with hp
        rw [Prod.mk.injEq] at hp
        exact ⟨le_of_eq hp.2, fun hq => absurd hq (by decide)⟩
  | tool =>
    simp only [execute_node_logic_enhanced, hty] at hL
    injection hL with hp
    rw [Prod.mk.injEq] at hp
    exact ⟨by rw [← hp.2]; omega, fun hq => absurd hq (by decide)⟩
  | condition =>
    simp only [execute_node_logic_enhanced, hty] at hL
    injection hL with hp
    rw [Prod.mk.injEq] at hp
    exact ⟨by rw [← hp.2]; omega, fun hq => absurd hq (by decide)⟩
  | subgraph =>
    simp only [execute_node_logic_enhanced, hty] at hL
    injection hL with hp
    rw [Prod.mk.injEq] at hp
    exact ⟨by rw [← hp.2]; omega, fun hq => absurd hq (by decide)⟩
  | human =>
    simp only [execute_node_logic_enhanced, hty] at hL
    injection hL with hp
    rw [Prod.mk.injEq] at hp
    exact ⟨by rw [← hp.2]; omega, fun hq => absurd hq (by decide)⟩

theorem lookupS_isSome_setS {α : Type} (j k : String) (v : α) (st : List (String × α))
    (h : (lookupS j (setS k v st)).isSome = true) (hjk : j ≠ k) :
    (lookupS j st).isSome = true := by
  rw [lookupS_setS_ne j k v st hjk] at h
  exact h

theorem execute_node_outInv (oracle : String → List (String × Value) → Except String Value)
    (o : String) (σ0 : Nat) (initKeys : List String)
    (ho1 : o ≠ "input") (ho2 : o ≠ "iterations") (ho3 : o ∉ initKeys)
    (g : Graph) (maxIter : Int) :
    ∀ (fuel : Nat) (id : String) (es es2 : ExecState),
    execute_node (execute_node_logic_enhanced oracle) g maxIter fuel id es = .ok es2 →
    outInv o σ0 initKeys es → outInv o σ0 initKeys es2 := by
  intro fuel
  induction fuel with
  | zero => intro id es es2 h _; rw [execute_node] at h; cases h
  | succ f ih =>
    intro id es es2 h hInv
    obtain ⟨hTag, hFresh, hProv, hOut⟩ := hInv
    rw [execute_node] at h
    cases hri : readIter es.state with
    | none => simp only [hri] at h; cases h
    | some it =>
      simp only [hri] at h
      by_cases hle : maxIter ≤ it
      · rw [if_pos hle] at h; cases h
      rw [if_neg hle] at h
      cases hnd : lookupS id es.nodes with
      | none => simp only [hnd] at h; cases h
      | some nd =>
        simp only [hnd] at h
        by_cases hco : nd.status = NodeStatus.completed
        · rw [if_pos hco] at h
          cases h
          refine ⟨hTag, hFresh, ?_, hOut⟩
          intro k hk
          by_cases hkt : k = "iterations"
          · exact Or.inr (Or.inl hkt)
          · exact hProv k (lookupS_isSome_setS k "iterations" _ es.state hk hkt)
        rw [if_neg hco] at h
        cases hL : execute_node_logic_enhanced oracle id nd { es with
            nodes := updS id (fun n => { n with status := .running }) es.nodes,
            state := setS "iterations" (.int (it + 1)) es.state,
            trace := es.trace ++ [.running id] } with
        | error msg => simp only [hL] at h; rw [nodeFail] at h; cases h
        | ok p =>
          obtain ⟨result, fresh2⟩ := p
          simp only [hL] at h
          have hspec := enhanced_logic_spec oracle id nd _ result fresh2 hL
          simp only at hspec
          -- the invariant at the post-completion state
          have hInv3 : outInv o σ0 initKeys { es with
              nodes := updS id (fun n => { n with result := some result, status := .completed })
                (updS id (fun n => { n with status := .running }) es.nodes),
              fresh := fresh2,
              trace := (es.trace ++ [.running id]) ++ [.completed id],
              state := setS id result (setS "iterations" (.int (it + 1)) es.state) } := by
            refine ⟨hTag, by show σ0 < fresh2; omega, ?_, ?_⟩
            · -- key provenance
              intro k hk
              by_cases hkid : k = id
              · subst hkid
                refine Or.inr (Or.inr (Or.inr ⟨{ nd with result := some result, status := NodeStatus.completed }, ?_, rfl⟩))
                rw [lookupS_updS_self, lookupS_updS_self, hnd]
                rfl
              by_cases hkt : k = "iterations"
              · exact Or.inr (Or.inl hkt)
              have hk2 : (lookupS k es.state).isSome = true := by
                rw [lookupS_setS_ne k id _ _ hkid, lookupS_setS_ne k "iterations" _ _ hkt] at hk
                exact hk
              rcases hProv k hk2 with hc | hc | hc | ⟨nd2, hnd2, hst2⟩
              · exact Or.inl hc
              · exact Or.inr (Or.inl hc)
              · exact Or.inr (Or.inr (Or.inl hc))
              · refine Or.inr (Or.inr (Or.inr ⟨nd2, ?_, hst2⟩))
                rw [lookupS_updS_ne _ _ _ _ hkid, lookupS_updS_ne _ _ _ _ hkid]
                exact hnd2
            · -- output clause
              intro ndo hndo htyo r hr
              by_cases hoid : o = id
              · subst hoid
                rw [lookupS_updS_self, lookupS_updS_self, hnd] at hndo
                simp only [Option.map_some'] at hndo
                injection hndo with hndo
                rw [← hndo] at htyo hr
                simp only at htyo hr
                injection hr with hr
                have hres := (hspec.2 htyo).symm
                rw [hr] at hres
                -- lookupS o es.state must be none
                have hnone : lookupS o es.state = Option.none := by
                  cases hq : lookupS o es.state with
                  | none => rfl
                  | some v0 =>
                    exfalso
                    have : (lookupS o es.state).isSome = true := by rw [hq]; rfl
                    rcases hProv o this with hc | hc | hc | ⟨nd2, hnd2, hst2⟩
                    · exact ho1 hc
                    · exact ho2 hc
                    · exact ho3 hc
                    · rw [hnd] at hnd2
                      injection hnd2 with hnd2
                      rw [← hnd2] at hst2
                      exact hco hst2
                refine ⟨es.fresh, (deepcopyE (es.fresh + 1)
                    (setS "iterations" (.int (it + 1)) es.state)).1, hres.symm, by omega, ?_⟩
                apply deepcopyE_lookup_none
                rw [lookupS_setS_ne o "iterations" _ _ ho2]
                exact hnone
              · rw [lookupS_updS_ne _ _ _ _ hoid, lookupS_updS_ne _ _ _ _ hoid] at hndo
                exact hOut ndo hndo htyo r hr
          have hstep2 : ∀ id3 es3 es4,
              execute_node (execute_node_logic_enhanced oracle) g maxIter f id3 es3 = .ok es4 →
              outInv o σ0 initKeys es3 → outInv o σ0 initKeys es4 :=
            fun id3 es3 es4 h3 hi3 => ih id3 es3 es4 h3 hi3
          cases hGat : execGather
              (fun id2 es2 => execute_node (execute_node_logic_enhanced oracle) g maxIter f id2 es2)
              (List.filter (fun e => evaluate_condition e
                  (setS id result (setS "iterations" (.int (it + 1)) es.state)))
                (List.filter (fun e => e.parallel) (get_outgoing_edges g id)))
              { es with
                nodes := updS id (fun n => { n with result := some result, status := .completed })
                  (updS id (fun n => { n with status := .running }) es.nodes),
                fresh := fresh2,
                trace := (es.trace ++ [.running id]) ++ [.completed id],
                state := setS id result (setS "iterations" (.int (it + 1)) es.state) } with
          | ok es4 =>
            simp only [hGat] at h
            have hInv4 := execGather_preserve _ _ (fun id3 es3 es4 hi3 h3 => hstep2 id3 es3 es4 h3 hi3)
              _ _ _ hInv3 hGat
            cases hSeq : execSequential
                (fun id2 es2 => execute_node (execute_node_logic_enhanced oracle) g maxIter f id2 es2)
                (sortEdges (List.filter (fun e => !e.parallel) (get_outgoing_edges g id)))
                es4 with
            | ok es5 =>
              simp only [hSeq] at h
              cases h
              exact execSequential_preserve _ _ (fun id3 es3 es4 hi3 h3 => hstep2 id3 es3 es4 h3 hi3)
                _ _ _ hInv4 hSeq
            | err m es5 => simp only [hSeq] at h; rw [nodeFail] at h; cases h
            | outOfFuel => simp only [hSeq] at h; cases h
          | err m es4 => simp only [hGat] at h; rw [nodeFail] at h; cases h
          | outOfFuel => simp only [hGat] at h; cases h


theorem lookupS_isSome_mem {α : Type} (k : String) (l : List (String × α))
    (h : (lookupS k l).isSome = true) : k ∈ l.map Prod.fst := by
  induction l with
  | nil => simp [lookupS] at h
  | cons p rest ih =>
    obtain ⟨k2, v⟩ := p
    rw [lookupS] at h
    by_cases hk : k2 = k
    · simp [hk]
    · rw [if_neg hk] at h
      exact List.mem_cons_of_mem _ (ih h)

theorem lookupS_none_not_mem {α : Type} (k : String) (l : List (String × α))
    (h : lookupS k l = Option.none) : k ∉ l.map Prod.fst := by
  induction l with
  | nil => simp
  | cons p rest ih =>
    obtain ⟨k2, v⟩ := p
    rw [lookupS] at h
    by_cases hk : k2 = k
    · rw [if_pos hk] at h; cases h
    · rw [if_neg hk] at h
      simp only [List.map_cons, List.mem_cons]
      push_neg
      exact ⟨fun hq => hk hq.symm, ih h⟩

/-- Claim C2 (amended): in the enhanced engine (`executor.py`), an OUTPUT
node's recorded result is a deep, independent copy of the workflow state taken
before the result is inserted: it is a dict with a fresh tag distinct from the
live state object's tag, and it contains no entry under the OUTPUT node's own
id (provided the caller-supplied initial state lacks that key and the id is not
one of the bookkeeping keys "input"/"iterations"). -/
theorem claim_C2_amended
    (oracle : String → List (String × Value) → Except String Value)
    (g : Graph) (input : Value) (maxIter : Int)
    (sd : TaggedDict) (freshStart : Nat) (es : ExecState)
    (o : String) (rec : NodeRec) (r : Value)
    (hfresh : sd.tag < freshStart)
    (ho1 : o ≠ "input") (ho2 : o ≠ "iterations")
    (ho3 : lookupS o sd.entries = Option.none)
    (hores : ∀ nd, lookupS o g.nodes = some nd → nd.result = Option.none)
    (hok : run_enhanced oracle g input maxIter (some sd) freshStart = .ok es)
    (hrec : lookupS o es.nodes = some rec)
    (hty : rec.type = .output)
    (hres : rec.result = some r) :
    es.stateTag = sd.tag ∧
    ∃ t en, r = .dict t en ∧ t ≠ es.stateTag ∧ lookupS o en = Option.none := by
  rw [run_enhanced] at hok
  unfold run at hok
  by_cases hEmp : g.nodes.isEmpty = true
  · simp only [hEmp, if_true] at hok; cases hok
  simp only [hEmp, Bool.false_eq_true, if_false] at hok
  cases hv : validateErr g with
  | some m => simp only [hv] at hok; cases hok
  | none =>
    simp only [hv] at hok
    by_cases hEnt : (entry_points g).isEmpty = true
    · simp only [hEnt, if_true] at hok; cases hok
    simp only [hEnt, Bool.false_eq_true, if_false] at hok
    have ho3m : o ∉ sd.entries.map Prod.fst := lookupS_none_not_mem o sd.entries ho3
    have hInv1 : outInv o sd.tag (sd.entries.map Prod.fst)
        { nodes := g.nodes,
          state := setS "iterations" (Value.int 0) (setS "input" input sd.entries),
          stateTag := sd.tag, fresh := freshStart, trace := [] } := by
      refine ⟨rfl, hfresh, ?_, ?_⟩
      · intro k hk
        by_cases hkt : k = "iterations"
        · exact Or.inr (Or.inl hkt)
        by_cases hki : k = "input"
        · exact Or.inl hki
        rw [lookupS_setS_ne k "iterations" _ _ hkt, lookupS_setS_ne k "input" _ _ hki] at hk
        exact Or.inr (Or.inr (Or.inl (lookupS_isSome_mem k sd.entries hk)))
      · intro nd hnd _ r2 hr2
        rw [hores nd hnd] at hr2
        cases hr2
    have hInvEnd := execEntries_preserve (execute_node_logic_enhanced oracle) g maxIter
      (maxIter.toNat + 1) (outInv o sd.tag (sd.entries.map Prod.fst))
      (fun id3 es3 es4 hi3 h3 =>
        execute_node_outInv oracle o sd.tag (sd.entries.map Prod.fst) ho1 ho2 ho3m g maxIter
          (maxIter.toNat + 1) id3 es3 es4 h3 hi3)
      _ _ _ hInv1 hok
    obtain ⟨htag, _, _, hOutEnd⟩ := hInvEnd
    obtain ⟨t, en, hre, htne, hlen⟩ := hOutEnd rec hrec hty r hres
    exact ⟨htag, t, en, hre, by rw [htag]; exact htne, hlen⟩

/-- Witness for `claim_C2_amended` on the concrete graph `gStartOut` with the
echo oracle. -/
theorem claim_C2_witness :
    ∃ es rec r,
      run_enhanced echoOracle gStartOut (.int 1) 10 (some ⟨0, []⟩) 1 = .ok es ∧
      lookupS "out" es.nodes = some rec ∧
      rec.type = .output ∧
      rec.result = some r ∧
      es.stateTag = 0 ∧
      ∃ t en, r = .dict t en ∧ t ≠ es.stateTag ∧ lookupS "out" en = Option.none := by
  have H := claim_C2_amended echoOracle gStartOut (.int 1) 10
    ⟨0, []⟩ 1 _ "out" _ _ (by decide) (by decide) (by decide) rfl
    (fun nd h => by cases h; rfl) rfl rfl rfl rfl
  exact ⟨_, _, _, rfl, rfl, rfl, rfl, H.1, H.2⟩

/-! ## Claim C6, amended part: stable priority dispatch and the
completed-before-running order under a unique incoming edge -/

theorem lookupS_mem {α : Type} (k : String) (v : α) :
    ∀ l : List (String × α), lookupS k l = some v → (k, v) ∈ l := by
  intro l
  induction l with
  | nil => intro h; cases h
  | cons p rest ih =>
    intro h
    obtain ⟨k2, v2⟩ := p
    rw [lookupS] at h
    by_cases hk : k2 = k
    · rw [if_pos hk] at h
      injection h with h2
      rw [hk, h2]
      exact List.mem_cons_self _ _
    · rw [if_neg hk] at h
      exact List.mem_cons_of_mem _ (ih h)

theorem mem_insertByPriority (e x : EdgeRec) :
    ∀ l, x ∈ insertByPriority e l ↔ x = e ∨ x ∈ l := by
  intro l
  induction l with
  | nil => simp [insertByPriority]
  | cons y ys ih =>
    rw [insertByPriority]
    by_cases hlt : y.priority < e.priority
    · rw [if_pos hlt]
      simp only [List.mem_cons, ih]
      tauto
    · rw [if_neg hlt]
      simp only [List.mem_cons]

theorem mem_sortEdges (x : EdgeRec) :
    ∀ l, x ∈ sortEdges l ↔ x ∈ l := by
  intro l
  induction l with
  | nil => simp [sortEdges]
  | cons y ys ih =>
    have hs : sortEdges (y :: ys) = insertByPriority y (sortEdges ys) := rfl
    rw [hs, mem_insertByPriority, ih]
    exact (List.mem_cons).symm

theorem insertByPriority_pairwise (e : EdgeRec) :
    ∀ l, l.Pairwise (fun a b => a.priority ≤ b.priority) →
      (insertByPriority e l).Pairwise (fun a b => a.priority ≤ b.priority) := by
  intro l
  induction l with
  | nil => intro _; simp [insertByPriority]
  | cons y ys ih =>
    intro hp
    rw [List.pairwise_cons] at hp
    rw [insertByPriority]
    by_cases hlt : y.priority < e.priority
    · rw [if_pos hlt]
      rw [List.pairwise_cons]
      constructor
      · intro z hz
        rw [mem_insertByPriority] at hz
        cases hz with
        | inl hz => rw [hz]; exact le_of_lt hlt
        | inr hz => exact hp.1 z hz
      · exact ih hp.2
    · rw [if_neg hlt]
      rw [List.pairwise_cons]
      constructor
      · intro z hz
        rw [List.mem_cons] at hz
        cases hz with
        | inl hz => rw [hz]; exact le_of_not_lt hlt
        | inr hz => exact le_trans (le_of_not_lt hlt) (hp.1 z hz)
      · rw [List.pairwise_cons]
        exact hp

theorem sortEdges_pairwise :
    ∀ l : List EdgeRec, (sortEdges l).Pairwise (fun a b => a.priority ≤ b.priority) := by
  intro l
  induction l with
  | nil => simp [sortEdges]
  | cons y ys ih =>
    have hs : sortEdges (y :: ys) = insertByPriority y (sortEdges ys) := rfl
    rw [hs]
    exact insertByPriority_pairwise y _ ih

theorem insertByPriority_filter (e : EdgeRec) (p : Int) :
    ∀ l, l.Pairwise (fun a b => a.priority ≤ b.priority) →
      (insertByPriority e l).filter (fun x => x.priority = p) =
        if e.priority = p then e :: l.filter (fun x => x.priority = p)
        else l.filter (fun x => x.priority = p) := by
  intro l
  induction l with
  | nil =>
    intro _
    by_cases hep : e.priority = p
    · rw [if_pos hep]; simp [insertByPriority, List.filter, hep]
    · rw [if_neg hep]; simp [insertByPriority, List.filter, hep]
  | cons y ys ih =>
    intro hp
    rw [List.pairwise_cons] at hp
    rw [insertByPriority]
    by_cases hlt : y.priority < e.priority
    · rw [if_pos hlt]
      by_cases hep : e.priority = p
      · rw [if_pos hep]
        have hyp : ¬ (y.priority = p) := by
          intro hq
          rw [← hep] at hq
          exact absurd hq (ne_of_lt hlt)
        have hyb : ¬ (decide (y.priority = p) = true) := by simp [hyp]
        rw [List.filter_cons, List.filter_cons, if_neg hyb, if_neg hyb, ih hp.2, if_pos hep]
      · rw [if_neg hep]
        by_cases hyp : y.priority = p
        · have hyb : decide (y.priority = p) = true := by simp [hyp]
          rw [List.filter_cons, List.filter_cons, if_pos hyb, if_pos hyb, ih hp.2, if_neg hep]
        · have hyb : ¬ (decide (y.priority = p) = true) := by simp [hyp]
          rw [List.filter_cons, List.filter_cons, if_neg hyb, if_neg hyb, ih hp.2, if_neg hep]
    · rw [if_neg hlt]
      by_cases hep : e.priority = p
      · have heb : decide (e.priority = p) = true := by simp [hep]
        rw [if_pos hep, List.filter_cons, if_pos heb]
      · have heb : ¬ (decide (e.priority = p) = true) := by simp [hep]
        rw [if_neg hep, List.filter_cons, if_neg heb]

theorem sortEdges_filter (p : Int) :
    ∀ l : List EdgeRec, (sortEdges l).filter (fun x => x.priority = p) =
      l.filter (fun x => x.priority = p) := by
  intro l
  induction l with
  | nil => rfl
  | cons y ys ih =>
    have hs : sortEdges (y :: ys) = insertByPriority y (sortEdges ys) := rfl
    rw [hs, insertByPriority_filter y p _ (sortEdges_pairwise ys)]
    by_cases hyp : y.priority = p
    · have hyb : decide (y.priority = p) = true := by simp [hyp]
      rw [if_pos hyp, ih, List.filter_cons, if_pos hyb]
    · have hyb : ¬ (decide (y.priority = p) = true) := by simp [hyp]
      rw [if_neg hyp, ih, List.filter_cons, if_neg hyb]

theorem mem_first_split {α : Type} (a : α) :
    ∀ l : List α, a ∈ l → ∃ s t, l = s ++ a :: t ∧ a ∉ s := by
  intro l
  induction l with
  | nil => intro h; cases h
  | cons x xs ih =>
    intro h
    by_cases hax : a = x
    · exact ⟨[], xs, by rw [hax]; rfl, List.not_mem_nil a⟩
    · have hmem : a ∈ xs := by
        rw [List.mem_cons] at h
        cases h with
        | inl h => exact absurd h hax
        | inr h => exact h
      obtain ⟨s, t, hl, hns⟩ := ih hmem
      refine ⟨x :: s, t, by rw [hl]; rfl, ?_⟩
      intro hq
      rw [List.mem_cons] at hq
      cases hq with
      | inl hq => exact hax hq
      | inr hq => exact hns hq

theorem sorted_first_split_mem (e1 e2 : EdgeRec) (l1 l2 : List EdgeRec)
    (hpw : (l1 ++ e2 :: l2).Pairwise (fun a b => a.priority ≤ b.priority))
    (hmem : e1 ∈ l1 ++ e2 :: l2)
    (hp : e1.priority < e2.priority) :
    e1 ∈ l1 := by
  rw [List.mem_append] at hmem
  cases hmem with
  | inl h => exact h
  | inr h =>
    rw [List.pairwise_append] at hpw
    rw [List.mem_cons] at h
    cases h with
    | inl h =>
      rw [h] at hp
      exact absurd hp (lt_irrefl _)
    | inr h =>
      have := hpw.2.1
      rw [List.pairwise_cons] at this
      exact absurd hp (not_lt_of_le (this.1 e1 h))

theorem execGather_preserveM (step : String → ExecState → ExecResult)
    (Q : ExecState → Prop) :
    ∀ l, (∀ e ∈ l, ∀ es es2, Q es → step e.target es = .ok es2 → Q es2) →
    ∀ es es2, Q es → execGather step l es = .ok es2 → Q es2 := by
  intro l
  induction l with
  | nil => intro _ es es2 hQ h; rw [execGather] at h; cases h; exact hQ
  | cons e rest ih =>
    intro hstep es es2 hQ h
    rw [execGather] at h
    cases hs : step e.target es with
    | ok es3 =>
      simp only [hs] at h
      exact ih (fun e2 hm => hstep e2 (List.mem_cons_of_mem _ hm)) es3 es2
        (hstep e (List.mem_cons_self _ _) es es3 hQ hs) h
    | err m es3 => simp only [hs] at h; cases h
    | outOfFuel => simp only [hs] at h; cases h

theorem execSequential_preserveM (step : String → ExecState → ExecResult)
    (Q : ExecState → Prop) :
    ∀ l, (∀ e ∈ l, ∀ es es2, Q es → step e.target es = .ok es2 → Q es2) →
    ∀ es es2, Q es → execSequential step l es = .ok es2 → Q es2 := by
  intro l
  induction l with
  | nil => intro _ es es2 hQ h; rw [execSequential] at h; cases h; exact hQ
  | cons e rest ih =>
    intro hstep es es2 hQ h
    rw [execSequential] at h
    by_cases hc : evaluate_condition e es.state = true
    · rw [if_pos hc] at h
      cases hs : step e.target es with
      | ok es3 =>
        simp only [hs] at h
        exact ih (fun e2 hm => hstep e2 (List.mem_cons_of_mem _ hm)) es3 es2
          (hstep e (List.mem_cons_self _ _) es es3 hQ hs) h
      | err m es3 => simp only [hs] at h; cases h
      | outOfFuel => simp only [hs] at h; cases h
    · rw [if_neg hc] at h
      exact ih (fun e2 hm => hstep e2 (List.mem_cons_of_mem _ hm)) es es2 hQ h

theorem execEntries_preserveM (L : LogicFn) (g : Graph) (maxIter : Int) (fuel : Nat)
    (Q : ExecState → Prop) :
    ∀ l, (∀ n ∈ l, ∀ es es2, Q es → execute_node L g maxIter fuel n es = .ok es2 → Q es2) →
    ∀ es es2, Q es → execEntries L g maxIter fuel l es = .ok es2 → Q es2 := by
  intro l
  induction l with
  | nil => intro _ es es2 hQ h; rw [execEntries] at h; cases h; exact hQ
  | cons e rest ih =>
    intro hstep es es2 hQ h
    rw [execEntries] at h
    cases hs : execute_node L g maxIter fuel e es with
    | ok es3 =>
      simp only [hs] at h
      exact ih (fun n hm => hstep n (List.mem_cons_of_mem _ hm)) es3 es2
        (hstep e (List.mem_cons_self _ _) es es3 hQ hs) h
    | err m es3 => simp only [hs] at h; cases h
    | outOfFuel => simp only [hs] at h; cases h

theorem execSequential_append (step : String → ExecState → ExecResult) :
    ∀ (a b : List EdgeRec) (es es2 : ExecState),
    execSequential step (a ++ b) es = .ok es2 →
    ∃ esm, execSequential step a es = .ok esm ∧ execSequential step b esm = .ok es2 := by
  intro a
  induction a with
  | nil => intro b es es2 h; exact ⟨es, rfl, h⟩
  | cons e a2 ih =>
    intro b es es2 h
    have hl : (e :: a2) ++ b = e :: (a2 ++ b) := rfl
    rw [hl, execSequential] at h
    by_cases hc : evaluate_condition e es.state = true
    · rw [if_pos hc] at h
      cases hs : step e.target es with
      | ok es3 =>
        simp only [hs] at h
        obtain ⟨esm, h1, h2⟩ := ih b es3 es2 h
        refine ⟨esm, ?_, h2⟩
        rw [execSequential, if_pos hc, hs]
        exact h1
      | err m es3 => simp only [hs] at h; cases h
      | outOfFuel => simp only [hs] at h; cases h
    · rw [if_neg hc] at h
      obtain ⟨esm, h1, h2⟩ := ih b es es2 h
      refine ⟨esm, ?_, h2⟩
      rw [execSequential, if_neg hc]
      exact h1

theorem execute_node_CE (L : LogicFn) (g : Graph) (maxIter : Int) :
    ∀ (fuel : Nat) (id : String) (es es2 : ExecState),
    execute_node L g maxIter fuel id es = .ok es2 →
    completedHasEvent es → completedHasEvent es2 := by
  intro fuel
  induction fuel with
  | zero => intro id es es2 h _; rw [execute_node] at h; cases h
  | succ f ih =>
    intro id es es2 h hce
    rw [execute_node] at h
    cases hri : readIter es.state with
    | none => simp only [hri] at h; cases h
    | some it =>
      simp only [hri] at h
      by_cases hle : maxIter ≤ it
      · rw [if_pos hle] at h; cases h
      rw [if_neg hle] at h
      cases hnd : lookupS id es.nodes with
      | none => simp only [hnd] at h; cases h
      | some nd =>
        simp only [hnd] at h
        by_cases hco : nd.status = NodeStatus.completed
        · rw [if_pos hco] at h
          cases h
          exact hce
        rw [if_neg hco] at h
        cases hL : L id nd { es with
            nodes := updS id (fun n => { n with status := .running }) es.nodes,
            state := setS "iterations" (.int (it + 1)) es.state,
            trace := es.trace ++ [.running id] } with
        | error msg => simp only [hL] at h; rw [nodeFail] at h; cases h
        | ok p =>
          obtain ⟨result, fresh2⟩ := p
          simp only [hL] at h
          have hce3 : completedHasEvent { es with
              nodes := updS id (fun n => { n with result := some result, status := .completed })
                (updS id (fun n => { n with status := .running }) es.nodes),
              fresh := fresh2,
              trace := (es.trace ++ [.running id]) ++ [.completed id],
              state := setS id result (setS "iterations" (.int (it + 1)) es.state) } := by
            intro n nd2 hl hcs
            by_cases hn : n = id
            · rw [hn]
              simp
            · rw [lookupS_updS_ne n id _ _ hn, lookupS_updS_ne n id _ _ hn] at hl
              exact List.mem_append_left _ (List.mem_append_left _ (hce n nd2 hl hcs))
          have hstep2 : ∀ id3 es3 es4, completedHasEvent es3 →
              execute_node L g maxIter f id3 es3 = .ok es4 → completedHasEvent es4 :=
            fun id3 es3 es4 hq h3 => ih id3 es3 es4 h3 hq
          cases hGat : execGather (fun id2 es2 => execute_node L g maxIter f id2 es2)
              (List.filter (fun e => evaluate_condition e
                  (setS id result (setS "iterations" (.int (it + 1)) es.state)))
                (List.filter (fun e => e.parallel) (get_outgoing_edges g id)))
              { es with
                nodes := updS id (fun n => { n with result := some result, status := .completed })
                  (updS id (fun n => { n with status := .running }) es.nodes),
                fresh := fresh2,
                trace := (es.trace ++ [.running id]) ++ [.completed id],
                state := setS id result (setS "iterations" (.int (it + 1)) es.state) } with
          | ok es4 =>
            simp only [hGat] at h
            have hce4 := execGather_preserve _ _ hstep2 _ _ _ hce3 hGat
            cases hSeq : execSequential (fun id2 es2 => execute_node L g maxIter f id2 es2)
                (sortEdges (List.filter (fun e => !e.parallel) (get_outgoing_edges g id)))
                es4 with
            | ok es5 =>
              simp only [hSeq] at h
              cases h
              exact execSequential_preserve _ _ hstep2 _ _ _ hce4 hSeq
            | err m es5 => simp only [hSeq] at h; rw [nodeFail] at h; cases h
            | outOfFuel => simp only [hSeq] at h; cases h
          | err m es4 => simp only [hGat] at h; rw [nodeFail] at h; cases h
          | outOfFuel => simp only [hGat] at h; cases h

theorem execute_node_trace_start (L : LogicFn) (g : Graph) (maxIter : Int)
    (fuel : Nat) (id : String) (es es2 : ExecState)
    (h : execute_node L g maxIter fuel id es = .ok es2)
    (hnc : ∀ nd, lookupS id es.nodes = some nd → nd.status ≠ NodeStatus.completed) :
    ∃ Δ, es2.trace = es.trace ++ Event.running id :: Event.completed id :: Δ := by
  cases fuel with
  | zero => rw [execute_node] at h; cases h
  | succ f =>
    rw [execute_node] at h
    cases hri : readIter es.state with
    | none => simp only [hri] at h; cases h
    | some it =>
      simp only [hri] at h
      by_cases hle : maxIter ≤ it
      · rw [if_pos hle] at h; cases h
      rw [if_neg hle] at h
      cases hnd : lookupS id es.nodes with
      | none => simp only [hnd] at h; cases h
      | some nd =>
        simp only [hnd] at h
        by_cases hco : nd.status = NodeStatus.completed
        · exact absurd hco (hnc nd hnd)
        rw [if_neg hco] at h
        cases hL : L id nd { es with
            nodes := updS id (fun n => { n with status := .running }) es.nodes,
            state := setS "iterations" (.int (it + 1)) es.state,
            trace := es.trace ++ [.running id] } with
        | error msg => simp only [hL] at h; rw [nodeFail] at h; cases h
        | ok p =>
          obtain ⟨result, fresh2⟩ := p
          simp only [hL] at h
          cases hGat : execGather (fun id2 es2 => execute_node L g maxIter f id2 es2)
              (List.filter (fun e => evaluate_condition e
                  (setS id result (setS "iterations" (.int (it + 1)) es.state)))
                (List.filter (fun e => e.parallel) (get_outgoing_edges g id)))
              { es with
                nodes := updS id (fun n => { n with result := some result, status := .completed })
                  (updS id (fun n => { n with status := .running }) es.nodes),
                fresh := fresh2,
                trace := (es.trace ++ [.running id]) ++ [.completed id],
                state := setS id result (setS "iterations" (.int (it + 1)) es.state) } with
          | ok es4 =>
            simp only [hGat] at h
            obtain ⟨_, Δ1, htr1, _⟩ := execGather_rel _ frameRel frameRel_refl frameRel_trans
              (fun id3 es3 es4 h3 => execute_node_frame L g maxIter f id3 es3 es4 h3)
              _ _ _ hGat
            cases hSeq : execSequential (fun id2 es2 => execute_node L g maxIter f id2 es2)
                (sortEdges (List.filter (fun e => !e.parallel) (get_outgoing_edges g id)))
                es4 with
            | ok es5 =>
              simp only [hSeq] at h
              cases h
              obtain ⟨_, Δ2, htr2, _⟩ := execSequential_rel _ frameRel frameRel_refl
                frameRel_trans
                (fun id3 es3 es4 h3 => execute_node_frame L g maxIter f id3 es3 es4 h3)
                _ _ _ hSeq
              refine ⟨Δ1 ++ Δ2, ?_⟩
              rw [htr2, htr1]
              simp
            | err m es5 => simp only [hSeq] at h; rw [nodeFail] at h; cases h
            | outOfFuel => simp only [hSeq] at h; cases h
          | err m es4 => simp only [hGat] at h; rw [nodeFail] at h; cases h
          | outOfFuel => simp only [hGat] at h; cases h

theorem execute_node_completed_mem (L : LogicFn) (g : Graph) (maxIter : Int)
    (fuel : Nat) (id : String) (es es2 : ExecState)
    (h : execute_node L g maxIter fuel id es = .ok es2)
    (hce : completedHasEvent es) :
    Event.completed id ∈ es2.trace := by
  have h0 := h
  cases fuel with
  | zero => rw [execute_node] at h; cases h
  | succ f =>
    rw [execute_node] at h
    cases hri : readIter es.state with
    | none => simp only [hri] at h; cases h
    | some it =>
      simp only [hri] at h
      by_cases hle : maxIter ≤ it
      · rw [if_pos hle] at h; cases h
      rw [if_neg hle] at h
      cases hnd : lookupS id es.nodes with
      | none => simp only [hnd] at h; cases h
      | some nd =>
        simp only [hnd] at h
        by_cases hco : nd.status = NodeStatus.completed
        · rw [if_pos hco] at h
          cases h
          exact hce id nd hnd hco
        · obtain ⟨Δ, hsh⟩ := execute_node_trace_start L g maxIter (f + 1) id es es2 h0
            (by
              intro nd2 h2
              rw [hnd] at h2
              injection h2 with h3
              rw [← h3]
              exact hco)
          rw [hsh]
          simp


theorem execSequential_C6tail (L : LogicFn) (g : Graph) (maxIter : Int) (f : Nat)
    (t1 : String) (e2 : EdgeRec)
    (hstep : ∀ id3 es3 es4, execute_node L g maxIter f id3 es3 = .ok es4 →
      id3 ≠ e2.target → C6inv t1 e2.target es3 → C6inv t1 e2.target es4) :
    ∀ l, (∀ e ∈ l, e.target = e2.target → e = e2) →
    ∀ es es2, Event.completed t1 ∈ es.trace → C6inv t1 e2.target es →
    execSequential (fun id2 es2 => execute_node L g maxIter f id2 es2) l es = .ok es2 →
    C6inv t1 e2.target es2 := by
  intro l
  induction l with
  | nil =>
    intro _ es es2 _ hQ h
    rw [execSequential] at h
    cases h
    exact hQ
  | cons e rest ih =>
    intro hl es es2 hm1 hQ h
    rw [execSequential] at h
    by_cases hc : evaluate_condition e es.state = true
    · rw [if_pos hc] at h
      cases hs : execute_node L g maxIter f e.target es with
      | ok es3 =>
        simp only [hs] at h
        have hext : ∃ Δ, es3.trace = es.trace ++ Δ := by
          obtain ⟨_, Δ, htr, _⟩ := execute_node_frame L g maxIter f e.target es es3 hs
          exact ⟨Δ, htr⟩
        obtain ⟨Δf, htrf⟩ := hext
        have hm3 : Event.completed t1 ∈ es3.trace := by
          rw [htrf]
          exact List.mem_append_left _ hm1
        by_cases het : e.target = e2.target
        · have hee : e = e2 := hl e (List.mem_cons_self _ _) het
          obtain ⟨hce, hpp⟩ := hQ
          have hce3 : completedHasEvent es3 :=
            execute_node_CE L g maxIter f e.target es es3 hs hce
          cases hpp with
          | inl hpre =>
            have hnc : ∀ nd, lookupS e.target es.nodes = some nd →
                nd.status ≠ NodeStatus.completed := by
              intro nd hnd hqs
              have := hce e.target nd hnd hqs
              rw [het] at this
              exact hpre.2 this
            obtain ⟨Δ, hsh⟩ := execute_node_trace_start L g maxIter f e.target es es3 hs hnc
            rw [het] at hsh
            refine ih (fun e3 hm => hl e3 (List.mem_cons_of_mem _ hm)) es3 es2 hm3
              ⟨hce3, Or.inr ⟨es.trace, Event.completed e2.target :: Δ, hsh, hm1⟩⟩ h
          | inr hpost =>
            obtain ⟨A, B, heq, hA⟩ := hpost
            refine ih (fun e3 hm => hl e3 (List.mem_cons_of_mem _ hm)) es3 es2 hm3
              ⟨hce3, Or.inr ⟨A, B ++ Δf, ?_, hA⟩⟩ h
            rw [htrf, heq]
            simp
        · have hQ3 := hstep e.target es es3 hs het hQ
          exact ih (fun e3 hm => hl e3 (List.mem_cons_of_mem _ hm)) es3 es2 hm3 hQ3 h
      | err m es3 => simp only [hs] at h; cases h
      | outOfFuel => simp only [hs] at h; cases h
    · rw [if_neg hc] at h
      exact ih (fun e3 hm => hl e3 (List.mem_cons_of_mem _ hm)) es es2 hm1 hQ h

theorem execute_node_C6 (L : LogicFn) (g : Graph) (maxIter : Int)
    (src : String) (e1 e2 : EdgeRec)
    (he1 : e1 ∈ (get_outgoing_edges g src).filter (fun e => !e.parallel))
    (he2 : e2 ∈ (get_outgoing_edges g src).filter (fun e => !e.parallel))
    (hp : e1.priority < e2.priority)
    (hc1 : e1.cond = Option.none)
    (hu : ∀ n e, e ∈ get_outgoing_edges g n → e.target = e2.target → n = src ∧ e = e2) :
    ∀ (fuel : Nat) (id : String) (es es2 : ExecState),
    execute_node L g maxIter fuel id es = .ok es2 → id ≠ e2.target →
    C6inv e1.target e2.target es → C6inv e1.target e2.target es2 := by
  have he2par : e2.parallel = false := by
    have := (List.mem_filter.mp he2).2
    simpa using this
  have he2out : e2 ∈ get_outgoing_edges g src := (List.mem_filter.mp he2).1
  have he1out : e1 ∈ get_outgoing_edges g src := (List.mem_filter.mp he1).1
  have he1t : e1.target ≠ e2.target := by
    intro hq
    obtain ⟨_, hee⟩ := hu src e1 he1out hq
    rw [hee] at hp
    exact lt_irrefl _ hp
  intro fuel
  induction fuel with
  | zero => intro id es es2 h _ _; rw [execute_node] at h; cases h
  | succ f ih =>
    intro id es es2 h hid hQ
    obtain ⟨hce, hpp⟩ := hQ
    rw [execute_node] at h
    cases hri : readIter es.state with
    | none => simp only [hri] at h; cases h
    | some it =>
      simp only [hri] at h
      by_cases hle : maxIter ≤ it
      · rw [if_pos hle] at h; cases h
      rw [if_neg hle] at h
      cases hnd : lookupS id es.nodes with
      | none => simp only [hnd] at h; cases h
      | some nd =>
        simp only [hnd] at h
        by_cases hco : nd.status = NodeStatus.completed
        · rw [if_pos hco] at h
          cases h
          exact ⟨hce, hpp⟩
        rw [if_neg hco] at h
        cases hL : L id nd { es with
            nodes := updS id (fun n => { n with status := .running }) es.nodes,
            state := setS "iterations" (.int (it + 1)) es.state,
            trace := es.trace ++ [.running id] } with
        | error msg => simp only [hL] at h; rw [nodeFail] at h; cases h
        | ok p =>
          obtain ⟨result, fresh2⟩ := p
          simp only [hL] at h
          have hQC : C6inv e1.target e2.target { es with
              nodes := updS id (fun n => { n with result := some result, status := .completed })
                (updS id (fun n => { n with status := .running }) es.nodes),
              fresh := fresh2,
              trace := (es.trace ++ [.running id]) ++ [.completed id],
              state := setS id result (setS "iterations" (.int (it + 1)) es.state) } := by
            constructor
            · intro n nd2 hl hcs
              by_cases hn : n = id
              · rw [hn]
                simp
              · rw [lookupS_updS_ne n id _ _ hn, lookupS_updS_ne n id _ _ hn] at hl
                exact List.mem_append_left _ (List.mem_append_left _ (hce n nd2 hl hcs))
            · cases hpp with
              | inl hpre =>
                refine Or.inl ⟨?_, ?_⟩
                · intro hq
                  rcases List.mem_append.mp hq with hq2 | hq2
                  · rcases List.mem_append.mp hq2 with hq3 | hq3
                    · exact hpre.1 hq3
                    · rw [List.mem_singleton] at hq3
                      injection hq3 with h4
                      exact hid h4.symm
                  · rw [List.mem_singleton] at hq2
                    cases hq2
                · intro hq
                  rcases List.mem_append.mp hq with hq2 | hq2
                  · rcases List.mem_append.mp hq2 with hq3 | hq3
                    · exact hpre.2 hq3
                    · rw [List.mem_singleton] at hq3
                      cases hq3
                  · rw [List.mem_singleton] at hq2
                    injection hq2 with h4
                    exact hid h4.symm
              | inr hpost =>
                obtain ⟨A, B, heq, hA⟩ := hpost
                refine Or.inr ⟨A, (B ++ [Event.running id]) ++ [Event.completed id], ?_, hA⟩
                rw [heq]
                simp
          cases hGat : execGather (fun id2 es2 => execute_node L g maxIter f id2 es2)
              (List.filter (fun e => evaluate_condition e
                  (setS id result (setS "iterations" (.int (it + 1)) es.state)))
                (List.filter (fun e => e.parallel) (get_outgoing_edges g id)))
              { es with
                nodes := updS id (fun n => { n with result := some result, status := .completed })
                  (updS id (fun n => { n with status := .running }) es.nodes),
                fresh := fresh2,
                trace := (es.trace ++ [.running id]) ++ [.completed id],
                state := setS id result (setS "iterations" (.int (it + 1)) es.state) } with
          | ok es4 =>
            simp only [hGat] at h
            have hQ4 : C6inv e1.target e2.target es4 := by
              refine execGather_preserveM _ _ _ ?_ _ _ hQC hGat
              intro e hm es3 es4x hq hs
              have hmfil := List.mem_filter.mp hm
              have hmfil2 := List.mem_filter.mp hmfil.1
              have hpar : e.parallel = true := by simpa using hmfil2.2
              have het : e.target ≠ e2.target := by
                intro hq2
                obtain ⟨_, hee⟩ := hu id e hmfil2.1 hq2
                rw [hee] at hpar
                rw [he2par] at hpar
                cases hpar
              exact ih e.target es3 es4x hs het hq
            cases hSeq : execSequential (fun id2 es2 => execute_node L g maxIter f id2 es2)
                (sortEdges (List.filter (fun e => !e.parallel) (get_outgoing_edges g id)))
                es4 with
            | ok es5 =>
              simp only [hSeq] at h
              cases h
              by_cases hsrc : id = src
              · subst hsrc
                have hmemsorted : e2 ∈ sortEdges
                    (List.filter (fun e => !e.parallel) (get_outgoing_edges g id)) :=
                  (mem_sortEdges e2 _).mpr he2
                obtain ⟨l1, l2, hsp, hne2⟩ := mem_first_split e2 _ hmemsorted
                have hpw := sortEdges_pairwise
                  (List.filter (fun e => !e.parallel) (get_outgoing_edges g id))
                rw [hsp] at hpw
                have he1s : e1 ∈ l1 := by
                  refine sorted_first_split_mem e1 e2 l1 l2 hpw ?_ hp
                  rw [← hsp]
                  exact (mem_sortEdges e1 _).mpr he1
                have hl1sub : ∀ e ∈ l1, e ∈ get_outgoing_edges g id ∧ e.target ≠ e2.target := by
                  intro e hm
                  have hmem2 : e ∈ get_outgoing_edges g id := by
                    have : e ∈ sortEdges
                        (List.filter (fun e => !e.parallel) (get_outgoing_edges g id)) := by
                      rw [hsp]
                      exact List.mem_append_left _ hm
                    exact (List.mem_filter.mp ((mem_sortEdges e _).mp this)).1
                  refine ⟨hmem2, ?_⟩
                  intro hq
                  obtain ⟨_, hee⟩ := hu id e hmem2 hq
                  rw [hee] at hm
                  exact hne2 hm
                rw [hsp] at hSeq
                obtain ⟨esE, hseq1, hseq2⟩ := execSequential_append _ l1 (e2 :: l2) _ _ hSeq
                obtain ⟨l1a, l1b, hsp1, _⟩ := mem_first_split e1 l1 he1s
                rw [hsp1] at hseq1
                obtain ⟨esX, hseqa, hseqb⟩ :=
                  execSequential_append _ l1a (e1 :: l1b) _ _ hseq1
                have hQX : C6inv e1.target e2.target esX := by
                  refine execSequential_preserveM _ _ _ ?_ _ _ hQ4 hseqa
                  intro e hm es3 es4x hq hs
                  have hmem2 : e ∈ l1 := by
                    rw [hsp1]
                    exact List.mem_append_left _ hm
                  exact ih e.target es3 es4x hs (hl1sub e hmem2).2 hq
                rw [execSequential] at hseqb
                have hcond : evaluate_condition e1 esX.state = true := by
                  rw [evaluate_condition, hc1]
                rw [if_pos hcond] at hseqb
                cases hsx : execute_node L g maxIter f e1.target esX with
                | ok esY =>
                  simp only [hsx] at hseqb
                  have hmt1 : Event.completed e1.target ∈ esY.trace :=
                    execute_node_completed_mem L g maxIter f e1.target esX esY hsx hQX.1
                  have hQY : C6inv e1.target e2.target esY :=
                    ih e1.target esX esY hsx he1t hQX
                  have hQE : C6inv e1.target e2.target esE := by
                    refine execSequential_preserveM _ _ _ ?_ _ _ hQY hseqb
                    intro e hm es3 es4x hq hs
                    have hmem2 : e ∈ l1 := by
                      rw [hsp1]
                      exact List.mem_append_right _ (List.mem_cons_of_mem _ hm)
                    exact ih e.target es3 es4x hs (hl1sub e hmem2).2 hq
                  have hmE : Event.completed e1.target ∈ esE.trace := by
                    obtain ⟨_, Δ, htr, _⟩ := execSequential_rel _ frameRel frameRel_refl
                      frameRel_trans
                      (fun id3 es3 es4x h3 => execute_node_frame L g maxIter f id3 es3 es4x h3)
                      _ _ _ hseqb
                    rw [htr]
                    exact List.mem_append_left _ hmt1
                  refine execSequential_C6tail L g maxIter f e1.target e2
                    (fun id3 es3 es4x h3 hne hq => ih id3 es3 es4x h3 hne hq)
                    (e2 :: l2) ?_ esE es2 hmE hQE hseq2
                  intro e hm hq
                  have hmem2 : e ∈ get_outgoing_edges g id := by
                    have : e ∈ sortEdges
                        (List.filter (fun e => !e.parallel) (get_outgoing_edges g id)) := by
                      rw [hsp]
                      exact List.mem_append_right _ hm
                    exact (List.mem_filter.mp ((mem_sortEdges e _).mp this)).1
                  exact (hu id e hmem2 hq).2
                | err m esY => simp only [hsx] at hseqb; cases hseqb
                | outOfFuel => simp only [hsx] at hseqb; cases hseqb
              · refine execSequential_preserveM _ _ _ ?_ _ _ hQ4 hSeq
                intro e hm es3 es4x hq hs
                have hmem2 : e ∈ get_outgoing_edges g id :=
                  (List.mem_filter.mp ((mem_sortEdges e _).mp hm)).1
                have het : e.target ≠ e2.target := by
                  intro hq2
                  exact hsrc ((hu id e hmem2 hq2).1)
                exact ih e.target es3 es4x hs het hq
            | err m es5 => simp only [hSeq] at h; rw [nodeFail] at h; cases h
            | outOfFuel => simp only [hSeq] at h; cases h
          | err m es4 => simp only [hGat] at h; rw [nodeFail] at h; cases h
          | outOfFuel => simp only [hGat] at h; cases h


/-- Claim C6, amended and proved for every graph, node logic and run:
(i) the sequential dispatch list of any node is the stable ascending sort
of its non-parallel outgoing edges by priority (sorted, and within each
priority class exactly the insertion order); (ii) if a node `src` has two
unconditional-on-`e1` sequential edges `e1` and `e2` with
`e1.priority < e2.priority`, `e2` is the only edge of the whole graph
whose target is `e2.target`, that target is no entry point, no node is
initially COMPLETED, and a successful run ever puts `e2.target` into
RUNNING, then `e1.target` reached COMPLETED strictly before that RUNNING
event.  The uniqueness proviso is forced by the counterexample: a target
reachable through another path may run earlier. -/
theorem claim_C6_amended (L : LogicFn) (g : Graph) (input : Value) (maxIter : Int)
    (state? : Option TaggedDict) (freshStart : Nat) (esf : ExecState)
    (src : String) (e1 e2 : EdgeRec)
    (he1 : e1 ∈ (get_outgoing_edges g src).filter (fun e => !e.parallel))
    (he2 : e2 ∈ (get_outgoing_edges g src).filter (fun e => !e.parallel))
    (hp : e1.priority < e2.priority)
    (hc1 : e1.cond = Option.none)
    (hu : ∀ n e, e ∈ get_outgoing_edges g n → e.target = e2.target → n = src ∧ e = e2)
    (hent : e2.target ∉ entry_points g)
    (hinit : ∀ p ∈ g.nodes, p.2.status ≠ NodeStatus.completed)
    (hok : run L g input maxIter state? freshStart = .ok esf)
    (hran : Event.running e2.target ∈ esf.trace) :
    ((sortEdges ((get_outgoing_edges g src).filter (fun e => !e.parallel))).Pairwise
        (fun a b => a.priority ≤ b.priority) ∧
      ∀ p : Int,
        (sortEdges ((get_outgoing_edges g src).filter (fun e => !e.parallel))).filter
            (fun e => e.priority = p) =
          ((get_outgoing_edges g src).filter (fun e => !e.parallel)).filter
            (fun e => e.priority = p)) ∧
    ∃ A B, esf.trace = A ++ Event.running e2.target :: B ∧
      Event.completed e1.target ∈ A := by
  refine ⟨⟨sortEdges_pairwise _, fun p => sortEdges_filter p _⟩, ?_⟩
  have hQinit : ∀ es : ExecState, es.nodes = g.nodes → es.trace = [] →
      C6inv e1.target e2.target es := by
    intro es hn ht
    refine ⟨?_, Or.inl ⟨?_, ?_⟩⟩
    · intro n nd hl hcs
      rw [hn] at hl
      exact absurd hcs (hinit (n, nd) (lookupS_mem n nd g.nodes hl))
    · rw [ht]; exact List.not_mem_nil _
    · rw [ht]; exact List.not_mem_nil _
  unfold run at hok
  by_cases hEmp : g.nodes.isEmpty = true
  · simp only [hEmp, if_true] at hok; cases hok
  simp only [hEmp, Bool.false_eq_true, if_false] at hok
  cases hv : validateErr g with
  | some m => simp only [hv] at hok; cases hok
  | none =>
    simp only [hv] at hok
    by_cases hEnt : (entry_points g).isEmpty = true
    · simp only [hEnt, if_true] at hok; cases hok
    simp only [hEnt, Bool.false_eq_true, if_false] at hok
    have hQf := execEntries_preserveM L g maxIter (maxIter.toNat + 1)
      (C6inv e1.target e2.target) (entry_points g)
      (fun n hm es3 es4 hq h3 =>
        execute_node_C6 L g maxIter src e1 e2 he1 he2 hp hc1 hu _ n es3 es4 h3
          (fun hq2 => hent (hq2 ▸ hm)) hq)
      _ esf (hQinit _ rfl rfl) hok
    obtain ⟨_, hpp⟩ := hQf
    cases hpp with
    | inl hpre => exact absurd hran hpre.1
    | inr hpost => exact hpost

/-- Witness for the amended C6 on the concrete graph `gPrio`. -/
theorem claim_C6_witness :
    ∃ esf, run execute_node_logic_base gPrio (.int 7) 10 Option.none 0 = .ok esf ∧
      (((sortEdges ((get_outgoing_edges gPrio "S").filter (fun e => !e.parallel))).Pairwise
          (fun a b => a.priority ≤ b.priority) ∧
        ∀ p : Int,
          (sortEdges ((get_outgoing_edges gPrio "S").filter (fun e => !e.parallel))).filter
              (fun e => e.priority = p) =
            ((get_outgoing_edges gPrio "S").filter (fun e => !e.parallel)).filter
              (fun e => e.priority = p)) ∧
      ∃ A B, esf.trace = A ++ Event.running "B" :: B ∧ Event.completed "A" ∈ A) := by
  refine ⟨_, rfl, ?_⟩
  have hu : ∀ n e, e ∈ get_outgoing_edges gPrio n →
      e.target = (prioEdge "S" "B" 2).target → n = "S" ∧ e = prioEdge "S" "B" 2 := by
    intro n e he ht
    simp only [get_outgoing_edges, gPrio] at he
    rw [lookupS] at he
    by_cases hn : "S" = n
    · rw [if_pos hn, Option.getD_some] at he
      cases he with
      | head => exact absurd ht (by decide)
      | tail _ h1 =>
        cases h1 with
        | head => exact ⟨hn.symm, rfl⟩
        | tail _ h2 => cases h2
    · rw [if_neg hn, lookupS] at he
      exact absurd he (List.not_mem_nil e)
  have hinit : ∀ p ∈ gPrio.nodes, p.2.status ≠ NodeStatus.completed := by
    intro p hp
    cases hp with
    | head => decide
    | tail _ h1 =>
      cases h1 with
      | head => decide
      | tail _ h2 =>
        cases h2 with
        | head => decide
        | tail _ h3 => cases h3
  exact claim_C6_amended execute_node_logic_base gPrio (.int 7) 10 Option.none 0 _ "S"
    (prioEdge "S" "A" 1) (prioEdge "S" "B" 2)
    (List.Mem.head _) (List.Mem.tail _ (List.Mem.head _))
    (by decide) rfl hu (by decide) hinit rfl (by decide)

end GenXAI
